import Mathlib

/-!
Verification development for the `tiago-clientes-crm` lead-reconciliation
service (`src/server.ts`, `src/import_csv.ts`).

Strings are modelled as `List Char`; JavaScript numbers as `ℚ` (the values
handled by the engine are exact decimal currency amounts).  JavaScript
`toLowerCase` and the diacritic-stripping step of `normalize` are modelled
for the ASCII range (NFD diacritic removal is the identity on ASCII).
-/

namespace CRM

/-- The set of JavaScript `\s` characters (whitespace + line terminators),
as used by `String.prototype.trim` and the `\s` regex class. -/
def isJsWs (c : Char) : Bool :=
  [' ', '\t', '\n', '\r', '\u000B', '\u000C', '\u00A0', '\u1680',
   '\u2028', '\u2029', '\u202F', '\u205F', '\u3000', '\uFEFF'].contains c
  || ('\u2000' ≤ c && c ≤ '\u200A')

/-- JavaScript regex line terminators (positions after which a multiline `^`
anchors): `\n`, `\r`, U+2028, U+2029. -/
def isLineTerm (c : Char) : Bool :=
  ['\n', '\r', '\u2028', '\u2029'].contains c

/-- `String.prototype.trim`. -/
def jsTrim (l : List Char) : List Char :=
  ((l.dropWhile isJsWs).reverse.dropWhile isJsWs).reverse

/-- ASCII model of `String.prototype.toLowerCase` (per character). -/
def asciiToLower (c : Char) : Char :=
  if 65 ≤ c.toNat ∧ c.toNat ≤ 90 then Char.ofNat (c.toNat + 32) else c

/-- `toLowerCase` over a whole string. -/
def toLowerChars (l : List Char) : List Char :=
  l.map asciiToLower

/-- `.replace(/\s+/g, ' ')`: each maximal whitespace run becomes one space
(emitted at the end of the run). -/
def collapseWs : List Char → List Char
  | [] => []
  | c :: rest =>
    if isJsWs c then
      match rest with
      | [] => [' ']
      | d :: _ => if isJsWs d then collapseWs rest else ' ' :: collapseWs rest
    else c :: collapseWs rest

/-- `normalize` from `server.ts`: lowercase, strip diacritics (identity on
the ASCII model), collapse whitespace runs, trim. -/
def normalize (l : List Char) : List Char :=
  jsTrim (collapseWs (toLowerChars l))

/-- `toArray` input: a string or an array of strings (`produtos` field). -/
inductive StrOrList where
  | s (v : List Char)
  | l (vs : List (List Char))
deriving DecidableEq

/-- `toArray` from `server.ts`: split a string on `,`/`;`/`|` (or take the
array as-is), trim entries, drop empties.  `toArray(undefined)` and
`toArray('')` (falsy) both give `[]`, which the modelled branches also
produce. -/
def toArray : Option StrOrList → List (List Char)
  | none => []
  | some (.s v) => ((v.splitOnP (fun c => c == ',' || c == ';' || c == '|')).map jsTrim).filter (· ≠ [])
  | some (.l vs) => (vs.map jsTrim).filter (· ≠ [])

/-! ## Currency parsing (`parseCurrencyToNumber`, `toClickUpCurrency`) -/

/-- One pass of `.replace(/BRL|R\$|\s/gi, '')`: at each position try, in the
regex's alternation order, a case-insensitive `BRL`, then a case-insensitive
`R$`, then a whitespace character; matches are deleted. -/
def stripCurrencyMarks : List Char → List Char
  | [] => []
  | [a] => if isJsWs a then [] else [a]
  | [a, b] =>
    if asciiToLower a = 'r' ∧ b = '$' then []
    else if isJsWs a then stripCurrencyMarks [b]
    else a :: stripCurrencyMarks [b]
  | a :: b :: c :: t =>
    if asciiToLower a = 'b' ∧ asciiToLower b = 'r' ∧ asciiToLower c = 'l' then
      stripCurrencyMarks t
    else if asciiToLower a = 'r' ∧ b = '$' then
      stripCurrencyMarks (c :: t)
    else if isJsWs a then stripCurrencyMarks (b :: c :: t)
    else a :: stripCurrencyMarks (b :: c :: t)

/-- Decimal digits to a natural number. -/
def digitsToNat (l : List Char) : Nat :=
  l.foldl (fun n c => n * 10 + (c.toNat - 48)) 0

/-- Mantissa of a JS numeric literal: `digits[.digits]` or `.digits`
(also `digits.`); returns the value and the unconsumed remainder. -/
def parseMantissa (l : List Char) : Option (ℚ × List Char) :=
  let ip := l.takeWhile Char.isDigit
  let r1 := l.dropWhile Char.isDigit
  match r1 with
  | '.' :: r2 =>
    let fp := r2.takeWhile Char.isDigit
    let r3 := r2.dropWhile Char.isDigit
    if ip = [] ∧ fp = [] then none
    else some ((digitsToNat ip : ℚ) + (digitsToNat fp : ℚ) / (10 : ℚ) ^ fp.length, r3)
  | _ => if ip = [] then none else some ((digitsToNat ip : ℚ), r1)

/-- `Number(s)` for the decimal-literal fragment of the JS grammar
(optional sign, mantissa, optional exponent); `Number('') = 0`; any other
string is NaN (`none`).  Hex/`Infinity` inputs, which never arise from
currency strings, are also mapped to `none`. -/
def jsNumber (l : List Char) : Option ℚ :=
  if l = [] then some 0
  else
    let signSplit : Bool × List Char :=
      match l with
      | '-' :: t => (true, t)
      | '+' :: t => (false, t)
      | _ => (false, l)
    match parseMantissa signSplit.2 with
    | none => none
    | some (m, r) =>
      let v : Option ℚ :=
        match r with
        | [] => some m
        | e :: r2 =>
          if e = 'e' ∨ e = 'E' then
            let esign : Bool × List Char :=
              match r2 with
              | '-' :: t => (true, t)
              | '+' :: t => (false, t)
              | _ => (false, r2)
            let ed := esign.2.takeWhile Char.isDigit
            if ed = [] ∨ esign.2.dropWhile Char.isDigit ≠ [] then none
            else if esign.1 then some (m / (10 : ℚ) ^ digitsToNat ed)
            else some (m * (10 : ℚ) ^ digitsToNat ed)
          else none
      match v with
      | none => none
      | some q => some (if signSplit.1 then -q else q)

/-- A JavaScript value as it reaches `parseCurrencyToNumber`
(`string | number | null | undefined`). -/
inductive JsVal where
  | str (s : List Char)
  | num (q : ℚ)
  | undef
deriving DecidableEq

/-- `parseCurrencyToNumber` from `server.ts`: numbers pass through; strings
are trimmed, currency markers and whitespace are stripped, Brazilian
decimal commas are converted, then `Number(...)` is applied.  `null` is
returned as `none`.  (`ℚ` has no NaN/Infinity, so the `isFinite` guards on
the number branch are vacuous in the model.) -/
def parseCurrencyToNumber : JsVal → Option ℚ
  | .undef => none
  | .num q => some q
  | .str s0 =>
    let s1 := jsTrim s0
    if s1 = [] then none
    else
      let s2 := stripCurrencyMarks s1
      let s3 :=
        if s2.contains ',' && s2.contains '.' then
          (s2.filter (· ≠ '.')).map (fun c => if c = ',' then '.' else c)
        else if s2.contains ',' then s2.map (fun c => if c = ',' then '.' else c)
        else s2
      jsNumber s3

/-- Decimal digit characters of a natural number. -/
def natToChars (n : Nat) : List Char :=
  Nat.toDigits 10 n

/-- `x.toFixed(2)` per the ECMA spec: take the sign apart, then the integer
`n` closest to `100·|x|` (ties upward), rendered with two decimals. -/
def toFixed2 (q : ℚ) : List Char :=
  let sign : List Char := if q < 0 then ['-'] else []
  let n : Nat := (⌊(if q < 0 then -q else q) * 100 + 1 / 2⌋).toNat
  sign ++ natToChars (n / 100) ++ '.' :: (if n % 100 < 10 then ['0'] else []) ++ natToChars (n % 100)

/-- `toUSDMoneyString`: `value.toFixed(2)`. -/
def toUSDMoneyString (q : ℚ) : List Char :=
  toFixed2 q

/-- `toClickUpCurrency`: integers render without decimals, otherwise
`toFixed(2)`. -/
def toClickUpCurrency (q : ℚ) : List Char :=
  if q.den = 1 then
    (if q < 0 then ['-'] else []) ++ natToChars q.num.natAbs
  else toFixed2 q

/-- JavaScript truthiness of a `number | null` (`0`, `NaN` and `null` are
falsy; `NaN` is already `none` here). -/
def jsTruthyNum (o : Option ℚ) : Bool :=
  match o with
  | none => false
  | some q => decide (q ≠ 0)

/-! ## Purchase-history description rewriting -/

/-- `buildPurchaseLine` from `server.ts`.  `formatDateBR` goes through the
JS `Date` machinery (system clock, calendar rollover); the already-formatted
`DD/MM/YYYY` date string is therefore a parameter here. -/
def buildPurchaseLine (dateBr : List Char) (amount : ℚ) (product : List Char) : List Char :=
  dateBr ++ " | ".data ++ toUSDMoneyString amount ++ " | ".data ++ product

/-- JS `String.prototype.includes`. -/
def includesSub (hay needle : List Char) : Bool :=
  decide (needle <:+: hay)

def comprasKey : List Char := "Compras:".data

/-- Match of `\s*Compras:` starting at a given anchor position (the `\s*`
is greedy and `C` is not whitespace, so greedy skipping is exact). -/
def lineStartMatch (l : List Char) : Bool :=
  comprasKey.isPrefixOf (l.dropWhile isJsWs)

/-- Anchors after each line terminator for the multiline `^`. -/
def hasComprasAux : List Char → Bool
  | [] => false
  | c :: rest => (isLineTerm c && lineStartMatch rest) || hasComprasAux rest

/-- `/^\s*Compras:/m.test(existingDesc)`. -/
def hasCompras (l : List Char) : Bool :=
  lineStartMatch l || hasComprasAux l

/-- The `newDesc` computation on the update path (lines 650–657 of
`server.ts`): append the purchase line under the `Compras:` section,
creating the section or the description as needed; skip the bullet if the
exact line is already present. -/
def newDescOf (existingDesc line : List Char) : List Char :=
  if hasCompras existingDesc then
    if includesSub existingDesc line then existingDesc
    else existingDesc ++ '\n' :: '-' :: ' ' :: line
  else if jsTrim existingDesc ≠ [] then
    existingDesc ++ "\n\nCompras:\n- ".data ++ line
  else "Compras:\n- ".data ++ line

/-- Number of (possibly overlapping) occurrences of a nonempty pattern `p`
as a contiguous substring. -/
def countOccur (p : List Char) : List Char → Nat
  | [] => 0
  | c :: rest => (if p.isPrefixOf (c :: rest) then 1 else 0) + countOccur p rest

/-! ## Tag union and the add-tag loop -/

/-- `new Set()` + repeated `.add`, as an insertion-ordered list. -/
def jsSetAdd [DecidableEq α] (acc : List α) (x : α) : List α :=
  if x ∈ acc then acc else acc ++ [x]

/-- `Array.from(new Set(l))`: deduplicate keeping first occurrences. -/
def dedupFirst [DecidableEq α] (l : List α) : List α :=
  l.foldl jsSetAdd []

/-- `unionTags` from `server.ts`: normalized union of existing and added
tags, first-seen order. -/
def unionTags (existing additions : List (List Char)) : List (List Char) :=
  dedupFirst (existing.map normalize ++ additions.map normalize)

/-- The add-tag loop of the update path (lines 675–682): walk the merged
tag list, send `addTagToTask` for tags whose normalized form is not in the
evolving seen-set; the surrounding `try` aborts the loop at the first
failing send (tags in `tagFails` fail).  Returns the tags actually sent
(the failing send included, since it was attempted). -/
def tagLoop (tagFails : List (List Char)) (seen : List (List Char)) :
    List (List Char) → List (List Char)
  | [] => []
  | t :: ts =>
    if normalize t ∈ seen then tagLoop tagFails seen ts
    else t :: (if t ∈ tagFails then [] else tagLoop tagFails (normalize t :: seen) ts)

/-- Effect of one successful `addTagToTask` on the remote task's tag list:
the trimmed tag is appended, empty tags are skipped. -/
def addTagToTaskTags (taskTags : List (List Char)) (tagName : List Char) : List (List Char) :=
  if jsTrim tagName = [] then taskTags else taskTags ++ [jsTrim tagName]

/-- Remote tag set after a failure-free update of a task currently holding
`current`, merging in `derived`. -/
def finalTaskTags (current derived : List (List Char)) : List (List Char) :=
  (tagLoop [] (current.map normalize) (unionTags current derived)).foldl addTagToTaskTags current

/-! ## Product-option resolution -/

/-- An option of an enumerated (`labels`) custom field; `label` models
`(opt.label ?? opt.name ?? '').toString()`. -/
structure OptionDef where
  id : List Char
  label : List Char
deriving DecidableEq

/-- A custom-field definition of the remote list (`ListCustomField`). -/
structure ListCustomField where
  id : List Char
  name : List Char
  options : List OptionDef
deriving DecidableEq

/-- The `normalizedLabelToId` map: built by `Map.set` over the options in
order (so the LAST option with a given normalized label wins), skipping
options with an empty label text. -/
def normalizedLabelToId (options : List OptionDef) (key : List Char) : Option (List Char) :=
  (((options.filter (fun o => o.label ≠ [])).reverse.find?
      (fun o => normalize o.label = key)).map (·.id))

/-- Import-path per-label matching (lines 559–572 of `server.ts`): tier 1 —
the trimmed label is an existing option id; tier 2 — exact normalized label
match; tier 3 — the normalized label contains or is contained in a
normalized option label (first option in definition order). -/
def matchProdutoLabel (options : List OptionDef) (trimmed : List Char) : Option (List Char) :=
  if trimmed ∈ options.map (·.id) then some trimmed
  else
    match normalizedLabelToId options (normalize trimmed) with
    | some i => some i
    | none =>
      (options.find? (fun o =>
        includesSub (normalize o.label) (normalize trimmed)
        || includesSub (normalize trimmed) (normalize o.label))).map (·.id)

/-- `produtoOptionIds` of the import path (lines 548–575): match each
requested label, drop failures, deduplicate keeping first-seen order. -/
def resolveProdutoOptionIds (options : List OptionDef) (productList : List (List Char)) :
    List (List Char) :=
  dedupFirst (productList.filterMap (fun raw =>
    let trimmed := jsTrim raw
    if trimmed = [] then none else matchProdutoLabel options trimmed))

/-- `chosenOptionIds` of the `/tasks` lead path (lines 330–350): id match,
then exact normalized label match — no approximate tier, no final
deduplication. -/
def resolveChosenOptionIds (options : List OptionDef) (productList : List (List Char)) :
    List (List Char) :=
  productList.filterMap (fun raw =>
    let trimmed := jsTrim raw
    if trimmed = [] then none
    else if trimmed ∈ options.map (·.id) then some trimmed
    else normalizedLabelToId options (normalize trimmed))

/-! ## Static fallback field identifiers -/

def CPF_CUSTOM_FIELD_ID : List Char := "82ed3673-9b3e-4c7f-8c21-b070b7ecd3e1".data

def EMAIL_CUSTOM_FIELD_ID : List Char := "c34aaeb2-0233-42d3-8242-cd9a603b5b0b".data

def VALOR_VENDA_CUSTOM_FIELD_ID : List Char := "34343626-c252-4f75-acd3-d28391885d4b".data

/-! ## Lookup service (`findTaskByEmailOnList`) -/

/-- A task as seen by the paginated scan: each custom field is a pair of id
and value-if-it-is-a-string (`typeof f.value === 'string'`); non-string or
absent values are `none`. -/
structure RTask where
  tid : List Char
  cfs : List (List Char × Option (List Char))
deriving DecidableEq

/-- `cfs.find(f => idsToCheck.includes(f.id) && typeof f.value === 'string')`:
the FIRST candidate field in the task's own custom-field order. -/
def findCandidateCF (idsToCheck : List (List Char)) (t : RTask) :
    Option (List Char × Option (List Char)) :=
  t.cfs.find? (fun f => idsToCheck.contains f.1 && f.2.isSome)

/-- Whether the scan accepts a task: only the first candidate field's value
is compared (trimmed, lowercased) with the target. -/
def taskEmailMatches (target : List Char) (idsToCheck : List (List Char)) (t : RTask) : Bool :=
  match findCandidateCF idsToCheck t with
  | some (_, some v) => toLowerChars (jsTrim v) == target
  | _ => false

/-- The page loop of `findTaskByEmailOnList`: up to 50 pages, stopping at
the first empty page, returning the first matching task. -/
def scanPagesLoop (pages : Nat → List RTask) (target : List Char)
    (idsToCheck : List (List Char)) : Nat → Nat → Option RTask
  | 0, _ => none
  | fuel + 1, page =>
    let tasks := pages page
    if tasks = [] then none
    else
      match tasks.find? (taskEmailMatches target idsToCheck) with
      | some t => some t
      | none => scanPagesLoop pages target idsToCheck fuel (page + 1)

/-- `findTaskByEmailOnList` from `server.ts` (lines 452–466); the remote
service is the page function. -/
def findTaskByEmailOnList (pages : Nat → List RTask) (email : List Char)
    (fieldIds : List (List Char)) : Option RTask :=
  let target := toLowerChars (jsTrim email)
  if target = [] then none
  else
    scanPagesLoop pages target
      (if fieldIds ≠ [] then fieldIds else [EMAIL_CUSTOM_FIELD_ID]) 50 0

/-- The tasks visited by the scan, in scan order (pages concatenated up to
the fuel bound, stopping at the first empty page). -/
def visitedTasks (pages : Nat → List RTask) : Nat → Nat → List RTask
  | 0, _ => []
  | fuel + 1, page =>
    let tasks := pages page
    if tasks = [] then [] else tasks ++ visitedTasks pages fuel (page + 1)

/-! ## Reconciliation engine: update and create paths of `/import` -/

/-- A custom-field value on a remote task. -/
inductive CFVal where
  | s (v : List Char)
  | n (q : ℚ)
  | ids (l : List (List Char))
  | other
deriving DecidableEq

/-- `parseCurrencyToNumber(currentCf?.value)`: a string or number value is
parsed; an array value is template-stringified (elements joined by `,`); an
object value stringifies to `[object Object]`, which parses to NaN. -/
def parseCurrencyOfCF : Option CFVal → Option ℚ
  | none => none
  | some (.s v) => parseCurrencyToNumber (.str v)
  | some (.n q) => some q
  | some (.ids l) => parseCurrencyToNumber (.str (List.intercalate ",".data l))
  | some .other => none

/-- The slice of a remote task the update path reads. `description` models
`task.description || task.text_content || ''`. -/
structure TaskSnap where
  name : List Char
  description : List Char
  tags : List (List Char)
  customFields : List (List Char × CFVal)
deriving DecidableEq

def getCF (t : TaskSnap) (fid : List Char) : Option CFVal :=
  (t.customFields.find? (fun p => p.1 == fid)).map (·.2)

/-- A lead of the `/import` body (`LeadInputSchema`). -/
structure LeadM where
  nome : List Char
  email : Option (List Char)
  whatsapp : Option (List Char)
  cpf : Option (List Char)
  produtos : Option StrOrList
  estado : Option (List Char)
  valor : JsVal
  data : Option (List Char)
deriving DecidableEq

/-- JS truthiness of an optional string. -/
def jsTruthyStr (o : Option (List Char)) : Bool :=
  match o with
  | some s => decide (s ≠ [])
  | none => false

/-- `formatPhoneE164` from `server.ts` (= `normalizePhone` in
`import_csv.ts`). -/
def formatPhoneE164 (raw : Option (List Char)) : Option (List Char) :=
  match raw with
  | none => none
  | some r =>
    if r = [] then none
    else
      let digits := r.filter Char.isDigit
      if digits = [] then none
      else if (jsTrim r).head? = some '+' then some ('+' :: digits)
      else if "55".data.isPrefixOf digits then some ('+' :: digits)
      else some ('+' :: '5' :: '5' :: digits)

/-- The four dynamically resolved custom fields used by `/import`. -/
structure SchemaFields where
  emailField : Option ListCustomField
  whatsappField : Option ListCustomField
  cpfField : Option ListCustomField
  produtosField : Option ListCustomField
deriving DecidableEq

/-- Remote reads/writes attempted by the update path, in order.  Reads and
writes carry the data needed by the claims; `ok` on `setField` records
whether the individual call succeeded (its failure is swallowed except for
the sale-amount write). -/
inductive UOp where
  | readFreshProdutos
  | readFreshValor
  | readFreshDesc
  | putTask (name : Option (List Char)) (description : Option (List Char))
  | setField (fid : List Char) (v : CFVal) (ok : Bool)
  | addTag (t : List Char)
  | postComment
deriving DecidableEq

/-- The three `getTaskById` fresh reads the update path may perform
(`none` = the read threw and the `catch` fell back). -/
structure UpdateEnv where
  existing : TaskSnap
  freshProdutos : Option TaskSnap
  freshValor : Option TaskSnap
  freshDesc : Option TaskSnap
deriving DecidableEq

/-- Which remote writes fail (field/tag failures are by id/tag). -/
structure WriteFails where
  putFails : Bool
  fieldFails : List (List Char)
  valorFails : Bool
  tagFails : List (List Char)
  commentFails : Bool
deriving DecidableEq

/-- The `fieldUpdates` list of the update path (lines 618–622). -/
def computeFieldUpdates (sch : SchemaFields) (lead : LeadM) (phone : Option (List Char))
    (mergedProdutoIds : List (List Char)) : List (List Char × CFVal) :=
  (if jsTruthyStr lead.email then
    [(sch.emailField.elim EMAIL_CUSTOM_FIELD_ID (·.id), CFVal.s (lead.email.getD []))]
   else [])
  ++ (match phone, sch.whatsappField with
      | some p, some wfd => [(wfd.id, CFVal.s p)]
      | _, _ => [])
  ++ (if jsTruthyStr lead.cpf then
       [(sch.cpfField.elim CPF_CUSTOM_FIELD_ID (·.id), CFVal.s (lead.cpf.getD []))]
      else [])
  ++ (match sch.produtosField with
      | some pf => if mergedProdutoIds ≠ [] then [(pf.id, CFVal.ids mergedProdutoIds)] else []
      | none => [])

/-- Tag loop followed by the audit comment (lines 674–701): the tag block's
failure is swallowed (aborting only the rest of the loop); the comment call
is not guarded, so its failure throws. -/
def finishTagsAndComment (opsSoFar : List UOp) (currentTags tags : List (List Char))
    (wf : WriteFails) : Bool × List UOp :=
  let sent := tagLoop wf.tagFails (currentTags.map normalize) tags
  (!wf.commentFails, opsSoFar ++ sent.map UOp.addTag ++ [UOp.postComment])

/-- `produtoOptionIds` as computed before the lookup (lines 548–575). -/
def produtoOptionIdsOf (sch : SchemaFields) (lead : LeadM) : List (List Char) :=
  match sch.produtosField with
  | some pf =>
    if toArray lead.produtos ≠ [] then resolveProdutoOptionIds pf.options (toArray lead.produtos)
    else []
  | none => []

/-- Fresh read of the task's current enumerated product ids (lines
592–604): one `getTaskById` when a produtos field exists, falling back to
`existing` if the read throws. -/
def prodReadPair (sch : SchemaFields) (env : UpdateEnv) : List UOp × List (List Char) :=
  match sch.produtosField with
  | none => ([], [])
  | some pf =>
    ([UOp.readFreshProdutos],
      match getCF (env.freshProdutos.getD env.existing) pf.id with
      | some (.ids l) => l
      | _ => [])

/-- Fresh read and aggregation of the sale-amount field (lines 624–636):
only when the lead carries a truthy parsed amount; the current value is
`parseCurrencyToNumber(...) || 0`, `0` if the read throws. -/
def valorReadPair (lead : LeadM) (env : UpdateEnv) : List UOp × Option ℚ :=
  let amt := parseCurrencyToNumber lead.valor
  if jsTruthyNum amt then
    ([UOp.readFreshValor],
      some ((match env.freshValor with
             | some f => (parseCurrencyOfCF (getCF f VALOR_VENDA_CUSTOM_FIELD_ID)).getD 0
             | none => 0) + amt.getD 0))
  else ([], none)

/-- Fresh read of the description and the rewritten result (lines
640–659): only when the amount is truthy and a first product exists. -/
def descPair (lead : LeadM) (dateBr : List Char) (env : UpdateEnv) :
    List UOp × Option (List Char) :=
  let amt := parseCurrencyToNumber lead.valor
  match (toArray lead.produtos).head? with
  | some p0 =>
    if jsTruthyNum amt then
      let line := buildPurchaseLine dateBr (amt.getD 0) p0
      let existingDesc :=
        match env.freshDesc with
        | some f => if f.description ≠ [] then f.description else env.existing.description
        | none => env.existing.description
      ([UOp.readFreshDesc], some (newDescOf existingDesc line))
    else ([], none)
  | none => ([], none)

/-- The `name` component of the PUT payload (line 615). -/
def nameChangeOf (lead : LeadM) (env : UpdateEnv) : Option (List Char) :=
  if lead.nome ≠ [] ∧ lead.nome ≠ env.existing.name then some lead.nome else none

/-- The update path of `/import` (lines 584–702), from the point where an
existing task was found.  Returns whether the reconciliation completed
(`true` → outcome `updated`; `false` → a throw, caught by the per-lead
handler → outcome `skipped`) together with the remote operations attempted.
`derivedTags` is the tag set derived at lines 537–545 (products ∪ region);
`dateBr` is the `formatDateBR` rendering of the purchase date. -/
def runUpdate (sch : SchemaFields) (lead : LeadM) (derivedTags : List (List Char))
    (dateBr : List Char) (env : UpdateEnv) (wf : WriteFails) : Bool × List UOp :=
  let currentTags := env.existing.tags
  let tags := unionTags currentTags derivedTags
  let mergedProdutoIds :=
    dedupFirst ((prodReadPair sch env).2 ++ produtoOptionIdsOf sch lead)
  let fieldUpdates := computeFieldUpdates sch lead (formatPhoneE164 lead.whatsapp) mergedProdutoIds
  let base := (prodReadPair sch env).1 ++ (valorReadPair lead env).1
    ++ (descPair lead dateBr env).1
    ++ [UOp.putTask (nameChangeOf lead env) (descPair lead dateBr env).2]
  if wf.putFails then (false, base)
  else
    let fieldOps := fieldUpdates.map (fun f => UOp.setField f.1 f.2 (!(wf.fieldFails.contains f.1)))
    let afterFields := base ++ fieldOps
    match (valorReadPair lead env).2 with
    | some tot =>
      let vOp := UOp.setField VALOR_VENDA_CUSTOM_FIELD_ID
        (CFVal.s (toClickUpCurrency tot)) (!wf.valorFails)
      if wf.valorFails then (false, afterFields ++ [vOp])
      else finishTagsAndComment (afterFields ++ [vOp]) currentTags tags wf
    | none => finishTagsAndComment afterFields currentTags tags wf

/-- The create payload built by `/import`'s create path (lines 704–725). -/
structure CreatePayload where
  name : List Char
  tags : List (List Char)
  customFields : List (List Char × CFVal)
  description : Option (List Char)
deriving DecidableEq

/-- The `/import` create path: custom-field array and seeded description. -/
def runCreateImport (sch : SchemaFields) (lead : LeadM) (derivedTags : List (List Char))
    (dateBr : List Char) : CreatePayload :=
  let productList := toArray lead.produtos
  let produtoOptionIds := produtoOptionIdsOf sch lead
  let phone := formatPhoneE164 lead.whatsapp
  let amt := parseCurrencyToNumber lead.valor
  let cfArray :=
    (if jsTruthyStr lead.email then
      [(sch.emailField.elim EMAIL_CUSTOM_FIELD_ID (·.id), CFVal.s (lead.email.getD []))]
     else [])
    ++ (match phone, sch.whatsappField with
        | some p, some wfd => [(wfd.id, CFVal.s p)]
        | _, _ => [])
    ++ (if jsTruthyStr lead.cpf then
         [(sch.cpfField.elim CPF_CUSTOM_FIELD_ID (·.id), CFVal.s (lead.cpf.getD []))]
        else [])
    ++ (match sch.produtosField with
        | some pf => if produtoOptionIds ≠ [] then [(pf.id, CFVal.ids produtoOptionIds)] else []
        | none => [])
    ++ (if jsTruthyNum amt then
         [(VALOR_VENDA_CUSTOM_FIELD_ID, CFVal.s (toClickUpCurrency (amt.getD 0)))]
        else [])
  let description : Option (List Char) :=
    match productList.head? with
    | some p0 =>
      if jsTruthyNum amt then
        some ("Compras:\n- ".data ++ buildPurchaseLine dateBr (amt.getD 0) p0)
      else none
    | none => none
  { name := lead.nome, tags := derivedTags, customFields := cfArray, description := description }

/-- The purchase-dependent parts of the `/tasks` lead create path (lines
361–380): the seeded description and the optional sale-amount custom
field. -/
def tasksLeadCreateParts (valor : JsVal) (description0 : Option (List Char))
    (productList : List (List Char)) (dateBr : List Char) :
    Option (List Char) × Option (List Char × CFVal) :=
  let amt := parseCurrencyToNumber valor
  let descriptionCreate :=
    match productList.head? with
    | some p0 =>
      if jsTruthyNum amt then
        some ((match description0 with
               | some d => if d ≠ [] then d ++ "\n\n".data else []
               | none => []) ++ "Compras:\n- ".data ++ buildPurchaseLine dateBr (amt.getD 0) p0)
      else description0
    | none => description0
  (descriptionCreate,
   if jsTruthyNum amt then
     some (VALOR_VENDA_CUSTOM_FIELD_ID, CFVal.s (toClickUpCurrency (amt.getD 0)))
   else none)

/-! ## The `/import` per-lead loop -/

inductive LeadAction where
  | created
  | updated
  | skipped
deriving DecidableEq

/-- One entry of the `/import` results array. -/
structure ImportResult where
  email : Option (List Char)
  action : LeadAction
  taskId : Option (List Char)
  error : Option (List Char)
deriving DecidableEq

/-- The result pushed by the per-lead `catch` (line 735). -/
def skippedResult (lead : LeadM) (e : List Char) : ImportResult :=
  { email := if jsTruthyStr lead.email then lead.email else none,
    action := .skipped, taskId := none, error := some e }

/-- The `/import` per-lead loop (lines 533–737): each lead's reconciliation
(`recon`, the `withEmailLock` body plus the remote calls, which may throw)
runs inside its own `try`; a throw only produces that lead's `skipped`
entry and the loop continues. -/
def processLeads (recon : LeadM → Except (List Char) ImportResult) :
    List LeadM → List ImportResult
  | [] => []
  | l :: ls =>
    (match recon l with
     | .ok r => r
     | .error e => skippedResult l e) :: processLeads recon ls

/-! ## CSV batch worker (`import_csv.ts`) -/

/-- The per-row payload produced by `toPayload` (all fields trimmed
strings; missing columns become `''`). -/
structure RowPayload where
  produto : List Char
  nome : List Char
  email : List Char
  cpf : List Char
  telefone : List Char
  valor : List Char
  data : List Char
deriving DecidableEq

/-- `res.data?.results?.[0]?.action` as seen by the worker. -/
inductive RemoteReply where
  | created
  | updated
  | skippedR (err : Option (List Char))
  | otherR
deriving DecidableEq

/-- Value written into the status column for a row. -/
inductive RowStatus where
  | sim
  | erro
  | unchanged
deriving DecidableEq

/-- The running summary counters and error list. -/
structure Summary where
  processed : Nat
  created : Nat
  updated : Nat
  skipped : Nat
  errors : List (Nat × List Char × List Char)
deriving DecidableEq

def missingFieldsMsg : List Char :=
  "Campos obrigatórios ausentes (email/nome/produto)".data

/-- One row of the batch worker (lines 129–167 of `import_csv.ts`): the
required-field check runs before any remote call; `remote` models the
`axios.post` to `/import` (throwing = `.error`).  Returns the new summary,
the row's status-column value, and the remote calls made for this row. -/
def processRow (remote : RowPayload → Except (List Char) RemoteReply)
    (st : Summary) (row : RowPayload) (ln : Nat) : Summary × RowStatus × List RowPayload :=
  if row.email = [] ∨ row.nome = [] ∨ row.produto = [] then
    ({ st with
        skipped := st.skipped + 1
        errors := st.errors ++ [(ln, row.email, missingFieldsMsg)] }, .erro, [])
  else
    match remote row with
    | .ok rep =>
      let st1 := { st with processed := st.processed + 1 }
      (match rep with
       | .created => ({ st1 with created := st1.created + 1 }, .sim, [row])
       | .updated => ({ st1 with updated := st1.updated + 1 }, .sim, [row])
       | .skippedR e =>
         ({ st1 with
             skipped := st1.skipped + 1
             errors := st1.errors ++ [(ln, row.email, e.getD "skipped".data)] }, .erro, [row])
       | .otherR => (st1, .unchanged, [row]))
    | .error e =>
      ({ st with
          skipped := st.skipped + 1
          errors := st.errors ++ [(ln, row.email, e)] }, .erro, [row])

/-- The batch worker over a row sequence (the bounded-concurrency batches
update disjoint rows and commuting counters, so their combined effect is
this sequential fold). -/
def processBatch (remote : RowPayload → Except (List Char) RemoteReply)
    (st : Summary) : List (RowPayload × Nat) → Summary × List RowStatus × List RowPayload
  | [] => (st, [], [])
  | (row, ln) :: rest =>
    let r1 := processRow remote st row ln
    let rrest := processBatch remote r1.1 rest
    (rrest.1, r1.2.1 :: rrest.2.1, r1.2.2 ++ rrest.2.2)

/-! ## Per-email lock (`withEmailLock`)

Two reconciliations for the same normalized email key, interleaved by the
single-threaded event loop.  One thread step is one synchronous segment
between `await` points; the poll-check plus `Set.add` of `withEmailLock`
is one such segment (there is no `await` between the final `has` check and
the `add`), hence the atomic test-and-set in `tstep.start`.  `store` is
whether the remote service already holds a task for the key; remote calls
are assumed not to throw (a throw would only release the lock earlier via
`finally`). -/

/-- Program counter of one reconciliation for the shared key: polling at
`start`, holding the claim from `acquired`, lookup result recorded at
`looked`, remote writes done at `written`, terminal at `done` (`created`
tells whether the outcome is `created` rather than `updated`). -/
inductive TPC where
  | start
  | acquired
  | looked (found : Bool)
  | written (found : Bool)
  | done (created : Bool)
deriving DecidableEq, Fintype

structure LockState where
  locked : Bool
  store : Bool
  pc1 : TPC
  pc2 : TPC
deriving DecidableEq

/-- One step of a single reconciliation: atomic test-and-set of the claim,
lookup, write (creating iff lookup said "not found"), then release at the
terminal transition (the `finally`). -/
def tstep : Bool → Bool → TPC → Bool × Bool × TPC
  | locked, store, .start =>
    if locked then (locked, store, .start) else (true, store, .acquired)
  | locked, store, .acquired => (locked, store, .looked store)
  | locked, store, .looked f =>
    if f then (locked, store, .written true) else (locked, true, .written false)
  | _, store, .written f => (false, store, .done (!f))
  | locked, store, .done c => (locked, store, .done c)

def stepT (s : LockState) (tid : Bool) : LockState :=
  if tid then
    let r := tstep s.locked s.store s.pc2
    { locked := r.1, store := r.2.1, pc1 := s.pc1, pc2 := r.2.2 }
  else
    let r := tstep s.locked s.store s.pc1
    { locked := r.1, store := r.2.1, pc1 := r.2.2, pc2 := s.pc2 }

/-- Run a schedule (each entry says which reconciliation steps next). -/
def runSched (s : LockState) : List Bool → LockState
  | [] => s
  | tid :: rest => runSched (stepT s tid) rest

def initLock (store0 : Bool) : LockState :=
  ⟨false, store0, .start, .start⟩

/-- Holding the in-process claim. -/
def inCS : TPC → Bool
  | .acquired => true
  | .looked _ => true
  | .written _ => true
  | _ => false

/-- Past the lookup and not yet terminal. -/
def pastLookup : TPC → Bool
  | .looked _ => true
  | .written _ => true
  | _ => false

/-- Has created (or is about to report `created`). -/
def createdFlag : TPC → Bool
  | .written false => true
  | .done true => true
  | _ => false

def tFacts (store : Bool) : TPC → Bool
  | .looked false => !store
  | .looked true => store
  | .written true => store
  | .done false => store
  | _ => true

/-- Inductive invariant of the two-reconciliation lock system. -/
def lockInv (store0 : Bool) (s : LockState) : Bool :=
  (!(inCS s.pc1 && inCS s.pc2))
  && (s.locked == (inCS s.pc1 || inCS s.pc2))
  && tFacts s.store s.pc1 && tFacts s.store s.pc2
  && (s.store == (store0 || createdFlag s.pc1 || createdFlag s.pc2))
  && (!(createdFlag s.pc1 && createdFlag s.pc2))
  && (!(store0 && (createdFlag s.pc1 || createdFlag s.pc2)))

/-! ## Helper lemmas: `normalize` is idempotent -/

theorem char_toNat_ofNat_valid {n : Nat} (h : n < 55296) : (Char.ofNat n).toNat = n := by
  have hv : n.isValidChar := Or.inl h
  rw [Char.ofNat, dif_pos hv]
  rfl

theorem asciiToLower_idem (c : Char) : asciiToLower (asciiToLower c) = asciiToLower c := by
  unfold asciiToLower
  by_cases h : 65 ≤ c.toNat ∧ c.toNat ≤ 90
  · rw [if_pos h]
    have h32 : (Char.ofNat (c.toNat + 32)).toNat = c.toNat + 32 :=
      char_toNat_ofNat_valid (by omega)
    rw [if_neg (by rw [h32]; omega)]
  · rw [if_neg h, if_neg h]

theorem asciiToLower_space : asciiToLower ' ' = ' ' := by decide

/-- Adjacent characters are not both whitespace. -/
def WsOK (a b : Char) : Prop := ¬(isJsWs a = true ∧ isJsWs b = true)

theorem wsOK_symm {a b : Char} (h : WsOK a b) : WsOK b a := fun hc => h ⟨hc.2, hc.1⟩

theorem chain_wsOK_reverse {l : List Char} (h : List.Chain' WsOK l) :
    List.Chain' WsOK l.reverse :=
  List.chain'_reverse.mpr (h.imp (fun _ _ hab => wsOK_symm hab))

theorem mem_jsTrim {l : List Char} {c : Char} (h : c ∈ jsTrim l) : c ∈ l := by
  unfold jsTrim at h
  rw [List.mem_reverse] at h
  have h2 := List.dropWhile_subset isJsWs h
  rw [List.mem_reverse] at h2
  exact List.dropWhile_subset isJsWs h2

theorem collapseWs_cons_nil (x : Char) :
    collapseWs [x] = if isJsWs x then [' '] else [x] := rfl

theorem collapseWs_cons_cons (x d : Char) (r : List Char) :
    collapseWs (x :: d :: r) =
      if isJsWs x then (if isJsWs d then collapseWs (d :: r) else ' ' :: collapseWs (d :: r))
      else x :: collapseWs (d :: r) := rfl

theorem mem_collapseWs {c : Char} : ∀ l : List Char, c ∈ collapseWs l → c ∈ l ∨ c = ' ' := by
  intro l
  induction l with
  | nil => intro h; simp [collapseWs] at h
  | cons x rest ih =>
    intro h
    cases rest with
    | nil =>
      rw [collapseWs_cons_nil] at h
      by_cases hx : isJsWs x = true
      · rw [if_pos hx] at h
        simp only [List.mem_singleton] at h
        exact Or.inr h
      · rw [if_neg hx] at h
        simp only [List.mem_singleton] at h
        exact Or.inl (h ▸ List.mem_cons_self x [])
    | cons d r2 =>
      rw [collapseWs_cons_cons] at h
      by_cases hx : isJsWs x = true
      · rw [if_pos hx] at h
        by_cases hd : isJsWs d = true
        · rw [if_pos hd] at h
          rcases ih h with h1 | h1
          · exact Or.inl (List.mem_cons_of_mem x h1)
          · exact Or.inr h1
        · rw [if_neg hd] at h
          rcases List.mem_cons.mp h with h1 | h1
          · exact Or.inr h1
          · rcases ih h1 with h2 | h2
            · exact Or.inl (List.mem_cons_of_mem x h2)
            · exact Or.inr h2
      · rw [if_neg hx] at h
        rcases List.mem_cons.mp h with h1 | h1
        · exact Or.inl (h1 ▸ List.mem_cons_self x (d :: r2))
        · rcases ih h1 with h2 | h2
          · exact Or.inl (List.mem_cons_of_mem x h2)
          · exact Or.inr h2

theorem ws_mem_collapseWs {c : Char} :
    ∀ l : List Char, c ∈ collapseWs l → isJsWs c = true → c = ' ' := by
  intro l
  induction l with
  | nil => intro h _; simp [collapseWs] at h
  | cons x rest ih =>
    intro h hc
    cases rest with
    | nil =>
      rw [collapseWs_cons_nil] at h
      by_cases hx : isJsWs x = true
      · rw [if_pos hx] at h
        simpa using h
      · rw [if_neg hx] at h
        simp only [List.mem_singleton] at h
        exact absurd (h ▸ hc) hx
    | cons d r2 =>
      rw [collapseWs_cons_cons] at h
      by_cases hx : isJsWs x = true
      · rw [if_pos hx] at h
        by_cases hd : isJsWs d = true
        · rw [if_pos hd] at h
          exact ih h hc
        · rw [if_neg hd] at h
          rcases List.mem_cons.mp h with h1 | h1
          · exact h1
          · exact ih h1 hc
      · rw [if_neg hx] at h
        rcases List.mem_cons.mp h with h1 | h1
        · exact absurd (h1 ▸ hc) hx
        · exact ih h1 hc

theorem collapseWs_cons_not_ws {d : Char} {r : List Char} (hd : ¬ isJsWs d = true) :
    collapseWs (d :: r) = d :: collapseWs r := by
  cases r with
  | nil => rw [collapseWs_cons_nil, if_neg hd, collapseWs]
  | cons e r2 => rw [collapseWs_cons_cons, if_neg hd]

theorem chain_collapseWs : ∀ l : List Char, List.Chain' WsOK (collapseWs l) := by
  intro l
  induction l with
  | nil => simp [collapseWs]
  | cons x rest ih =>
    cases rest with
    | nil =>
      rw [collapseWs_cons_nil]
      by_cases hx : isJsWs x = true
      · rw [if_pos hx]
        simp
      · rw [if_neg hx]
        simp
    | cons d r2 =>
      rw [collapseWs_cons_cons]
      by_cases hx : isJsWs x = true
      · rw [if_pos hx]
        by_cases hd : isJsWs d = true
        · rw [if_pos hd]
          exact ih
        · rw [if_neg hd]
          refine List.chain'_cons'.mpr ⟨?_, ih⟩
          intro y hy hc
          rw [collapseWs_cons_not_ws hd, List.head?_cons] at hy
          have hyd : d = y := by simpa using hy
          exact hd (hyd ▸ hc.2)
      · rw [if_neg hx]
        refine List.chain'_cons'.mpr ⟨?_, ih⟩
        intro y _ hc
        exact hx hc.1

theorem collapseWs_eq_self :
    ∀ l : List Char, (∀ c ∈ l, isJsWs c = true → c = ' ') → List.Chain' WsOK l →
      collapseWs l = l := by
  intro l
  induction l with
  | nil => intro _ _; rfl
  | cons x rest ih =>
    intro hws hch
    have hch2 := List.chain'_cons'.mp hch
    cases rest with
    | nil =>
      rw [collapseWs_cons_nil]
      by_cases hx : isJsWs x = true
      · rw [if_pos hx, hws x (List.mem_cons_self x []) hx]
      · rw [if_neg hx]
    | cons d r2 =>
      rw [collapseWs_cons_cons]
      by_cases hx : isJsWs x = true
      · have hxsp := hws x (List.mem_cons_self x (d :: r2)) hx
        have hd : ¬ isJsWs d = true := by
          intro hdt
          exact (hch2.1 d rfl) ⟨hx, hdt⟩
        rw [if_pos hx, if_neg hd, hxsp,
          ih (fun c hc h => hws c (List.mem_cons_of_mem x hc) h) hch2.2]
      · rw [if_neg hx,
          ih (fun c hc h => hws c (List.mem_cons_of_mem x hc) h) hch2.2]

theorem dropWhile_eq_self_of_head {p : α → Bool} {l : List α}
    (h : ∀ a, l.head? = some a → p a = false) : l.dropWhile p = l := by
  cases l with
  | nil => rfl
  | cons a t => exact List.dropWhile_cons_of_neg (by simp [h a rfl])

theorem dropWhile_idem {p : α → Bool} (l : List α) :
    (l.dropWhile p).dropWhile p = l.dropWhile p := by
  refine dropWhile_eq_self_of_head ?_
  intro a ha
  have hh := List.head?_dropWhile_not p l
  rw [ha] at hh
  exact hh

theorem jsTrim_idem (l : List Char) : jsTrim (jsTrim l) = jsTrim l := by
  unfold jsTrim
  cases hB : (l.dropWhile isJsWs).reverse.dropWhile isJsWs with
  | nil => simp
  | cons b bs =>
    have hAne : l.dropWhile isJsWs ≠ [] := by
      intro hA
      rw [hA] at hB
      simp at hB
    obtain ⟨a, t, hA⟩ := List.exists_cons_of_ne_nil hAne
    have hahead : isJsWs a = false := by
      have hh := List.head?_dropWhile_not isJsWs l
      rw [hA] at hh
      simpa using hh
    obtain ⟨t2, ht2⟩ := List.dropWhile_suffix (l := (l.dropWhile isJsWs).reverse) isJsWs
    have hrevlast : (l.dropWhile isJsWs).reverse.getLast? = some a := by
      rw [List.getLast?_reverse, hA]
      rfl
    rw [← ht2, List.getLast?_append, hB] at hrevlast
    have hblast : (b :: bs).getLast? = some a := by
      cases hg : (b :: bs).getLast? with
      | none =>
        have : b :: bs ≠ [] := List.cons_ne_nil b bs
        rw [List.getLast?_eq_getLast _ this] at hg
        simp at hg
      | some z =>
        rw [hg] at hrevlast
        simpa using hrevlast
    have hheadrev : (b :: bs).reverse.head? = some a := by
      rw [List.head?_reverse]
      exact hblast
    have h1 : (b :: bs).reverse.dropWhile isJsWs = (b :: bs).reverse := by
      refine dropWhile_eq_self_of_head ?_
      intro c hc
      rw [hheadrev, Option.some.injEq] at hc
      rw [← hc]
      exact hahead
    have h2 : (b :: bs).dropWhile isJsWs = b :: bs := by
      rw [← hB]
      exact dropWhile_idem _
    rw [h1, List.reverse_reverse, h2]

theorem chain_jsTrim {l : List Char} (h : List.Chain' WsOK l) :
    List.Chain' WsOK (jsTrim l) := by
  unfold jsTrim
  exact chain_wsOK_reverse
    ((chain_wsOK_reverse (h.suffix (List.dropWhile_suffix isJsWs))).suffix
      (List.dropWhile_suffix isJsWs))

theorem map_eq_self_of {f : α → α} {l : List α} (h : ∀ a ∈ l, f a = a) : l.map f = l := by
  induction l with
  | nil => rfl
  | cons a t ih =>
    simp only [List.map_cons, h a (List.mem_cons_self a t),
      ih (fun b hb => h b (List.mem_cons_of_mem a hb))]

/-- `normalize` is idempotent: its output is lowered, whitespace-collapsed
and trimmed already. -/
theorem normalize_idem (l : List Char) : normalize (normalize l) = normalize l := by
  have hlower : toLowerChars (normalize l) = normalize l := by
    refine map_eq_self_of ?_
    intro a ha
    have h1 := mem_jsTrim ha
    rcases mem_collapseWs _ h1 with h2 | h2
    · obtain ⟨b, _, hb⟩ := List.mem_map.mp h2
      rw [← hb]
      exact asciiToLower_idem b
    · rw [h2]
      exact asciiToLower_space
  have hcoll : collapseWs (normalize l) = normalize l := by
    refine collapseWs_eq_self _ ?_ (chain_jsTrim (chain_collapseWs _))
    intro c hc hws
    exact ws_mem_collapseWs _ (mem_jsTrim hc) hws
  show jsTrim (collapseWs (toLowerChars (normalize l))) = normalize l
  rw [hlower, hcoll]
  exact jsTrim_idem _

/-! ## Helper lemmas: `dedupFirst` and `unionTags` -/

theorem mem_jsSetAdd [DecidableEq α] {acc : List α} {x y : α} :
    y ∈ jsSetAdd acc x ↔ y ∈ acc ∨ y = x := by
  unfold jsSetAdd
  split
  · constructor
    · exact Or.inl
    · rintro (h | rfl)
      · exact h
      · assumption
  · simp

theorem mem_foldl_jsSetAdd [DecidableEq α] :
    ∀ (l acc : List α) (y : α), y ∈ l.foldl jsSetAdd acc ↔ y ∈ acc ∨ y ∈ l := by
  intro l
  induction l with
  | nil => simp
  | cons x t ih =>
    intro acc y
    rw [List.foldl_cons, ih, mem_jsSetAdd]
    simp only [List.mem_cons]
    tauto

theorem nodup_foldl_jsSetAdd [DecidableEq α] :
    ∀ (l acc : List α), acc.Nodup → (l.foldl jsSetAdd acc).Nodup := by
  intro l
  induction l with
  | nil => intro acc h; exact h
  | cons x t ih =>
    intro acc h
    rw [List.foldl_cons]
    refine ih _ ?_
    unfold jsSetAdd
    split
    · exact h
    · simp only [List.nodup_append, List.nodup_cons, List.not_mem_nil, not_false_iff,
        List.nodup_nil, and_true, true_and]
      constructor
      · exact h
      · intro y hy hmem
        rw [List.mem_singleton] at hmem
        subst hmem
        exact absurd hy (by assumption)

theorem foldl_jsSetAdd_of_mem [DecidableEq α] :
    ∀ (l acc : List α), (∀ y ∈ l, y ∈ acc) → l.foldl jsSetAdd acc = acc := by
  intro l
  induction l with
  | nil => intro acc _; rfl
  | cons x t ih =>
    intro acc h
    rw [List.foldl_cons]
    have hx : jsSetAdd acc x = acc := by
      unfold jsSetAdd
      rw [if_pos (h x (List.mem_cons_self x t))]
    rw [hx]
    exact ih _ (fun y hy => h y (List.mem_cons_of_mem x hy))

theorem foldl_jsSetAdd_of_disjoint [DecidableEq α] :
    ∀ (l acc : List α), (∀ y ∈ l, y ∉ acc) → l.Nodup → l.foldl jsSetAdd acc = acc ++ l := by
  intro l
  induction l with
  | nil => intro acc _ _; simp
  | cons x t ih =>
    intro acc hdisj hnd
    rw [List.foldl_cons]
    have hx : jsSetAdd acc x = acc ++ [x] := by
      unfold jsSetAdd
      rw [if_neg (hdisj x (List.mem_cons_self x t))]
    rw [hx, ih (acc ++ [x]) ?_ (List.Nodup.of_cons hnd)]
    · simp
    · intro y hy
      rw [List.mem_append, List.mem_singleton]
      rintro (h1 | rfl)
      · exact hdisj y (List.mem_cons_of_mem x hy) h1
      · exact (List.nodup_cons.mp hnd).1 hy

theorem mem_dedupFirst [DecidableEq α] {l : List α} {y : α} :
    y ∈ dedupFirst l ↔ y ∈ l := by
  unfold dedupFirst
  rw [mem_foldl_jsSetAdd]
  simp

theorem nodup_dedupFirst [DecidableEq α] (l : List α) : (dedupFirst l).Nodup :=
  nodup_foldl_jsSetAdd l [] List.nodup_nil

theorem dedupFirst_of_nodup [DecidableEq α] {l : List α} (h : l.Nodup) :
    dedupFirst l = l := by
  unfold dedupFirst
  rw [foldl_jsSetAdd_of_disjoint l [] (by simp) h]
  simp

/-- Every element of a `unionTags` result is a `normalize` image, hence a
fixed point of `normalize`. -/
theorem unionTags_mem_normalized {e a : List (List Char)} {y : List Char}
    (h : y ∈ unionTags e a) : normalize y = y := by
  unfold unionTags at h
  rw [mem_dedupFirst, List.mem_append] at h
  rcases h with h1 | h1 <;>
    · obtain ⟨z, _, hz⟩ := List.mem_map.mp h1
      rw [← hz]
      exact normalize_idem z

/-- Merging the same additions twice changes nothing. -/
theorem unionTags_merge_idem (e a : List (List Char)) :
    unionTags (unionTags e a) a = unionTags e a := by
  have hmapself : (unionTags e a).map normalize = unionTags e a :=
    map_eq_self_of (fun y hy => unionTags_mem_normalized hy)
  show dedupFirst ((unionTags e a).map normalize ++ a.map normalize) = unionTags e a
  rw [hmapself]
  unfold dedupFirst
  rw [List.foldl_append]
  have h1 : (unionTags e a).foldl jsSetAdd [] = unionTags e a := by
    have := dedupFirst_of_nodup (nodup_dedupFirst (e.map normalize ++ a.map normalize))
    exact this
  rw [h1]
  refine foldl_jsSetAdd_of_mem _ _ ?_
  intro y hy
  unfold unionTags
  rw [mem_dedupFirst, List.mem_append]
  exact Or.inr hy

/-- Tags sent by the add-tag loop were not already present (by normalized
form) in the seen-set the loop started from. -/
theorem tagLoop_sends_new (tagFails : List (List Char)) :
    ∀ (ts seen : List (List Char)) (t : List Char),
      t ∈ tagLoop tagFails seen ts → normalize t ∉ seen := by
  intro ts
  induction ts with
  | nil => intro seen t h; simp [tagLoop] at h
  | cons t0 rest ih =>
    intro seen t h
    rw [tagLoop] at h
    split at h
    · exact ih seen t h
    · rcases List.mem_cons.mp h with rfl | h1
      · assumption
      · split at h1
        · simp at h1
        · have := ih _ t h1
          intro hc
          exact this (List.mem_cons_of_mem _ hc)

/-- The fold of successful `addTagToTask` effects only appends. -/
theorem foldl_addTag_prefix :
    ∀ (sends cur : List (List Char)), ∃ rest, sends.foldl addTagToTaskTags cur = cur ++ rest := by
  intro sends
  induction sends with
  | nil => intro cur; exact ⟨[], by simp⟩
  | cons s rest ih =>
    intro cur
    rw [List.foldl_cons]
    by_cases hs : jsTrim s = []
    · have he : addTagToTaskTags cur s = cur := by
        unfold addTagToTaskTags
        rw [if_pos hs]
      rw [he]
      exact ih cur
    · have he : addTagToTaskTags cur s = cur ++ [jsTrim s] := by
        unfold addTagToTaskTags
        rw [if_neg hs]
      rw [he]
      obtain ⟨r, hr⟩ := ih (cur ++ [jsTrim s])
      exact ⟨jsTrim s :: r, by rw [hr]; simp⟩

/-! ## Helper lemmas: description rewriting (`newDescOf`) -/

theorem dropWhile_append_of_all {p : α → Bool} :
    ∀ (pre l : List α), (∀ c ∈ pre, p c = true) → (pre ++ l).dropWhile p = l.dropWhile p := by
  intro pre
  induction pre with
  | nil => intro l _; rfl
  | cons a t ih =>
    intro l h
    rw [List.cons_append, List.dropWhile_cons_of_pos (h a (List.mem_cons_self a t))]
    exact ih l (fun c hc => h c (List.mem_cons_of_mem a hc))

theorem dropWhile_append_left {p : α → Bool} {l : List α} (x : List α)
    (hne : l.dropWhile p ≠ []) : (l ++ x).dropWhile p = l.dropWhile p ++ x := by
  obtain ⟨a, t, ha⟩ := List.exists_cons_of_ne_nil hne
  have hahd : p a = false := by
    have hh := List.head?_dropWhile_not p l
    rw [ha] at hh
    simpa using hh
  conv_lhs => rw [← List.takeWhile_append_dropWhile (p := p) (l := l), List.append_assoc]
  rw [dropWhile_append_of_all _ _ (fun c hc => List.mem_takeWhile_imp hc)]
  refine dropWhile_eq_self_of_head ?_
  intro c hc
  rw [ha, List.cons_append, List.head?_cons, Option.some.injEq] at hc
  rw [← hc]
  exact hahd

theorem lineStartMatch_append {l : List Char} (x : List Char)
    (h : lineStartMatch l = true) : lineStartMatch (l ++ x) = true := by
  unfold lineStartMatch at h ⊢
  rw [List.isPrefixOf_iff_prefix] at h ⊢
  have hne : l.dropWhile isJsWs ≠ [] := by
    intro hnil
    rw [hnil] at h
    have := h.length_le
    simp [comprasKey] at this
  rw [dropWhile_append_left x hne]
  exact h.trans (List.prefix_append _ _)

theorem hasComprasAux_append₁ {l : List Char} (x : List Char)
    (h : hasComprasAux l = true) : hasComprasAux (l ++ x) = true := by
  induction l with
  | nil => simp [hasComprasAux] at h
  | cons c rest ih =>
    rw [hasComprasAux, Bool.or_eq_true, Bool.and_eq_true] at h
    rw [List.cons_append, hasComprasAux, Bool.or_eq_true]
    rcases h with ⟨h1, h2⟩ | h1
    · exact Or.inl (by rw [h1, lineStartMatch_append x h2]; rfl)
    · exact Or.inr (ih h1)

theorem hasComprasAux_anchor {c : Char} (hc : isLineTerm c = true) :
    ∀ (a r : List Char), lineStartMatch r = true → hasComprasAux (a ++ c :: r) = true := by
  intro a
  induction a with
  | nil =>
    intro r hr
    rw [List.nil_append, hasComprasAux, Bool.or_eq_true]
    exact Or.inl (by rw [hc, hr]; rfl)
  | cons b bs ih =>
    intro r hr
    rw [List.cons_append, hasComprasAux, Bool.or_eq_true]
    exact Or.inr (ih r hr)

theorem hasCompras_append {l : List Char} (x : List Char)
    (h : hasCompras l = true) : hasCompras (l ++ x) = true := by
  rw [hasCompras, Bool.or_eq_true] at h ⊢
  rcases h with h1 | h1
  · exact Or.inl (lineStartMatch_append x h1)
  · exact Or.inr (hasComprasAux_append₁ x h1)

theorem lineStartMatch_compras (l : List Char) :
    lineStartMatch ("Compras:\n- ".data ++ l) = true := by
  unfold lineStartMatch
  have h1 : ("Compras:\n- ".data ++ l).dropWhile isJsWs = "Compras:\n- ".data ++ l := by
    refine dropWhile_eq_self_of_head ?_
    intro a ha
    have : a = 'C' := by
      have hr : ("Compras:\n- ".data ++ l).head? = some 'C' := rfl
      rw [hr, Option.some.injEq] at ha
      exact ha.symm
    rw [this]
    decide
  rw [h1, List.isPrefixOf_iff_prefix]
  exact ⟨'\n' :: '-' :: ' ' :: l, rfl⟩

theorem hasCompras_newDescOf (d l : List Char) : hasCompras (newDescOf d l) = true := by
  unfold newDescOf
  by_cases h1 : hasCompras d = true
  · rw [if_pos h1]
    by_cases h2 : includesSub d l = true
    · rw [if_pos h2]
      exact h1
    · rw [if_neg h2]
      have : d ++ '\n' :: '-' :: ' ' :: l = d ++ ('\n' :: '-' :: ' ' :: l) := rfl
      exact hasCompras_append _ h1
  · rw [if_neg h1]
    by_cases h3 : jsTrim d ≠ []
    · rw [if_pos h3]
      rw [hasCompras, Bool.or_eq_true]
      refine Or.inr ?_
      have hsplit : d ++ "\n\nCompras:\n- ".data ++ l
          = d ++ '\n' :: ('\n' :: ("Compras:\n- ".data ++ l)) := by
        rw [List.append_assoc]
        rfl
      rw [hsplit]
      refine hasComprasAux_anchor (by decide) d _ ?_
      unfold lineStartMatch
      rw [List.dropWhile_cons_of_pos (by decide)]
      have := lineStartMatch_compras l
      unfold lineStartMatch at this
      exact this
    · rw [if_neg h3]
      rw [hasCompras, Bool.or_eq_true]
      exact Or.inl (lineStartMatch_compras l)

theorem includesSub_append_self (x l : List Char) : includesSub (x ++ l) l = true := by
  unfold includesSub
  rw [decide_eq_true_iff]
  exact ⟨x, [], by simp⟩

/-- The purchase-history append is idempotent. -/
theorem newDescOf_idem (d l : List Char) : newDescOf (newDescOf d l) l = newDescOf d l := by
  have hhc : hasCompras (newDescOf d l) = true := hasCompras_newDescOf d l
  have hinc : includesSub (newDescOf d l) l = true := by
    unfold newDescOf
    by_cases h1 : hasCompras d = true
    · rw [if_pos h1]
      by_cases h2 : includesSub d l = true
      · rw [if_pos h2]
        exact h2
      · rw [if_neg h2]
        have : d ++ '\n' :: '-' :: ' ' :: l = (d ++ ['\n', '-', ' ']) ++ l := by simp
        rw [this]
        exact includesSub_append_self _ l
    · rw [if_neg h1]
      by_cases h3 : jsTrim d ≠ []
      · rw [if_pos h3]
        exact includesSub_append_self _ l
      · rw [if_neg h3]
        exact includesSub_append_self _ l
  conv_lhs => rw [newDescOf]
  rw [if_pos hhc, if_pos hinc]

/-! ## Helper lemmas: counting occurrences -/

theorem countOccur_zero_of_short {p : List Char} :
    ∀ {s : List Char}, s.length < p.length → countOccur p s = 0 := by
  intro s
  induction s with
  | nil => intro _; rfl
  | cons c rest ih =>
    intro h
    rw [countOccur]
    have hnp : p.isPrefixOf (c :: rest) = false := by
      by_contra hc
      rw [Bool.not_eq_false, List.isPrefixOf_iff_prefix] at hc
      have := hc.length_le
      omega
    rw [hnp, if_neg (by simp)]
    have : rest.length < p.length := by
      simp only [List.length_cons] at h
      omega
    rw [ih this]

theorem countOccur_self {p : List Char} (h : p ≠ []) : countOccur p p = 1 := by
  obtain ⟨a, t, rfl⟩ := List.exists_cons_of_ne_nil h
  rw [countOccur]
  have h1 : (a :: t).isPrefixOf (a :: t) = true := by
    rw [List.isPrefixOf_iff_prefix]
  have h2 : countOccur (a :: t) t = 0 :=
    countOccur_zero_of_short (by simp)
  rw [h1, if_pos rfl, h2]

theorem countOccur_cons_ne {a c : Char} {p' rest : List Char} (h : c ≠ a) :
    countOccur (a :: p') (c :: rest) = countOccur (a :: p') rest := by
  rw [countOccur]
  have hnp : (a :: p').isPrefixOf (c :: rest) = false := by
    by_contra hc
    rw [Bool.not_eq_false, List.isPrefixOf_iff_prefix, List.cons_prefix_cons] at hc
    exact h hc.1.symm
  rw [hnp, if_neg (by simp)]
  omega

theorem prefix_append_term {p : List Char} (hnl : '\n' ∉ p) :
    ∀ (x y : List Char), p <+: x ++ '\n' :: y ↔ p <+: x := by
  induction p with
  | nil => intro x y; simp
  | cons a p' ih =>
    intro x y
    cases x with
    | nil =>
      simp only [List.nil_append]
      constructor
      · intro h
        rw [List.cons_prefix_cons] at h
        exact absurd (h.1 ▸ List.mem_cons_self a p') hnl
      · intro h
        exact absurd h.length_le (by simp)
    | cons b x' =>
      rw [List.cons_append, List.cons_prefix_cons, List.cons_prefix_cons,
        ih (fun hm => hnl (List.mem_cons_of_mem a hm)) x' y]

theorem countOccur_append_term {p : List Char} (hnl : '\n' ∉ p) :
    ∀ (x y : List Char), countOccur p (x ++ '\n' :: y) = countOccur p x + countOccur p ('\n' :: y) := by
  intro x y
  induction x with
  | nil => simp [countOccur]
  | cons c x' ih =>
    rw [List.cons_append, countOccur, countOccur]
    have heq : p.isPrefixOf (c :: (x' ++ '\n' :: y)) = p.isPrefixOf (c :: x') := by
      rw [Bool.eq_iff_iff, List.isPrefixOf_iff_prefix, List.isPrefixOf_iff_prefix]
      have := prefix_append_term hnl (c :: x') y
      rw [List.cons_append] at this
      exact this
    rw [heq, ih]
    omega

theorem countOccur_append_headne {a : Char} {p' : List Char} :
    ∀ (x s : List Char), (∀ c ∈ x, c ≠ a) →
      countOccur (a :: p') (x ++ s) = countOccur (a :: p') s := by
  intro x
  induction x with
  | nil => intro s _; rfl
  | cons b x' ih =>
    intro s h
    rw [List.cons_append, countOccur_cons_ne (h b (List.mem_cons_self b x'))]
    exact ih s (fun c hc => h c (List.mem_cons_of_mem b hc))

theorem countOccur_zero_of_not_infix {p : List Char} :
    ∀ {s : List Char}, ¬ p <:+: s → countOccur p s = 0 := by
  intro s
  induction s with
  | nil => intro _; rfl
  | cons c rest ih =>
    intro h
    rw [countOccur]
    have h1 : p.isPrefixOf (c :: rest) = false := by
      by_contra hc
      rw [Bool.not_eq_false, List.isPrefixOf_iff_prefix] at hc
      exact h hc.isInfix
    have h2 : ¬ p <:+: rest := by
      intro hc
      obtain ⟨s1, t1, hs⟩ := hc
      exact h ⟨c :: s1, t1, by rw [← hs]; rfl⟩
    rw [h1, if_neg (by simp), ih h2]

theorem sep2_eq : "\n\nCompras:\n- ".data
    = '\n' :: '\n' :: 'C' :: 'o' :: 'm' :: 'p' :: 'r' :: 'a' :: 's' :: ':' :: '\n' :: '-' :: ' ' :: [] := rfl

theorem sep3_eq : "Compras:\n- ".data
    = 'C' :: 'o' :: 'm' :: 'p' :: 'r' :: 'a' :: 's' :: ':' :: '\n' :: '-' :: ' ' :: [] := rfl

theorem jsTrim_nil_all_ws {d : List Char} (h : jsTrim d = []) :
    ∀ c ∈ d, isJsWs c = true := by
  unfold jsTrim at h
  rw [List.reverse_eq_nil_iff, List.dropWhile_eq_nil_iff] at h
  intro c hc
  rw [← List.takeWhile_append_dropWhile (p := isJsWs) (l := d), List.mem_append] at hc
  rcases hc with hc | hc
  · exact List.mem_takeWhile_imp hc
  · exact h c (List.mem_reverse.mpr hc)

theorem lineStartMatch_of_all_ws {d : List Char} (h : ∀ c ∈ d, isJsWs c = true) :
    lineStartMatch d = false := by
  unfold lineStartMatch
  rw [List.dropWhile_eq_nil_iff.mpr h]
  decide

theorem hasCompras_of_all_ws {d : List Char} (h : ∀ c ∈ d, isJsWs c = true) :
    hasCompras d = false := by
  induction d with
  | nil => decide
  | cons c rest ih =>
    have hrest : ∀ x ∈ rest, isJsWs x = true :=
      fun x hx => h x (List.mem_cons_of_mem c hx)
    have hihc := ih hrest
    rw [hasCompras, Bool.or_eq_false_iff] at hihc
    rw [hasCompras, Bool.or_eq_false_iff]
    refine ⟨lineStartMatch_of_all_ws h, ?_⟩
    rw [hasComprasAux, Bool.or_eq_false_iff]
    exact ⟨by rw [hihc.1, Bool.and_false], hihc.2⟩

/-- Occurrence count after the append: the appended purchase line occurs
exactly once when it was absent, single-line, and starts with a digit (as
every `buildPurchaseLine` output does). -/
theorem countOccur_newDescOf {d l : List Char} (hni : includesSub d l = false)
    (hnl : '\n' ∉ l) (hhd : ∃ a t, l = a :: t ∧ a.isDigit = true) :
    countOccur l (newDescOf d l) = 1 := by
  obtain ⟨a, t, rfl, ha⟩ := hhd
  have hnd : ∀ c : Char, c.isDigit = false → c ≠ a := by
    intro c hc hca
    rw [hca, ha] at hc
    simp at hc
  have hninf : ¬ (a :: t) <:+: d := by
    intro hc
    unfold includesSub at hni
    rw [decide_eq_false_iff_not] at hni
    exact hni hc
  unfold newDescOf
  by_cases h1 : hasCompras d = true
  · rw [if_pos h1, if_neg (by rw [hni]; simp)]
    rw [countOccur_append_term hnl d ('-' :: ' ' :: a :: t),
      countOccur_zero_of_not_infix hninf,
      countOccur_cons_ne (hnd '\n' (by decide)),
      countOccur_cons_ne (hnd '-' (by decide)),
      countOccur_cons_ne (hnd ' ' (by decide)),
      countOccur_self (List.cons_ne_nil a t)]
  · rw [if_neg h1]
    by_cases h3 : jsTrim d ≠ []
    · rw [if_pos h3, sep2_eq, List.append_assoc, List.cons_append,
        countOccur_append_term hnl d _,
        countOccur_zero_of_not_infix hninf,
        countOccur_cons_ne (hnd '\n' (by decide))]
      rw [countOccur_append_headne _ _ ?hmem, countOccur_self (List.cons_ne_nil a t)]
      case hmem =>
        intro c hc
        fin_cases hc <;> exact hnd _ (by decide)
    · rw [if_neg h3, sep3_eq]
      rw [countOccur_append_headne _ _ ?hmem2, countOccur_self (List.cons_ne_nil a t)]
      case hmem2 =>
        intro c hc
        fin_cases hc <;> exact hnd _ (by decide)

/-- **C5** — Purchase-history append is idempotent: re-appending an
identical purchase line never changes the description (in particular when a
`Compras:` section is already present), and the exact line then occurs only
once; with other content but no section, the section is appended after a
blank line; on an empty (whitespace-only) description it is created
fresh. -/
theorem claim_C5_purchase_append_idempotent (d l : List Char) :
    newDescOf (newDescOf d l) l = newDescOf d l
    ∧ (hasCompras d = false → jsTrim d ≠ [] →
        newDescOf d l = d ++ "\n\nCompras:\n- ".data ++ l)
    ∧ (jsTrim d = [] → newDescOf d l = "Compras:\n- ".data ++ l)
    ∧ (includesSub d l = false → '\n' ∉ l →
        (∃ a t, l = a :: t ∧ a.isDigit = true) →
        countOccur l (newDescOf d l) = 1) := by
  refine ⟨newDescOf_idem d l, ?_, ?_, ?_⟩
  · intro h1 h2
    unfold newDescOf
    rw [if_neg (by rw [h1]; simp), if_pos h2]
  · intro h1
    have hc := hasCompras_of_all_ws (jsTrim_nil_all_ws h1)
    unfold newDescOf
    rw [if_neg (by rw [hc]; simp), if_neg (by simp [h1])]
  · exact fun hni hnl hhd => countOccur_newDescOf hni hnl hhd

/-- Closed witness for C5 at a concrete description and purchase line. -/
theorem claim_C5_witness :
    newDescOf (newDescOf "old notes".data "01/01/2024 | 10.00 | livro".data)
        "01/01/2024 | 10.00 | livro".data
      = newDescOf "old notes".data "01/01/2024 | 10.00 | livro".data
    ∧ countOccur "01/01/2024 | 10.00 | livro".data
        (newDescOf "old notes".data "01/01/2024 | 10.00 | livro".data) = 1
    ∧ newDescOf [] "01/01/2024 | 10.00 | livro".data
        = "Compras:\n- ".data ++ "01/01/2024 | 10.00 | livro".data := by
  refine ⟨(claim_C5_purchase_append_idempotent _ _).1, ?_, ?_⟩
  · exact (claim_C5_purchase_append_idempotent "old notes".data _).2.2.2
      (by decide) (by decide) ⟨'0', _, rfl, by decide⟩
  · exact (claim_C5_purchase_append_idempotent [] _).2.2.1 (by decide)

/-- **C6** — Tag merge is an idempotent union under normalized comparison:
merging the derived tags twice equals merging once; the add-tag loop never
removes an existing tag (the remote task keeps all current tags); and every
tag it sends was not already present by normalized form. -/
theorem claim_C6_tag_merge_idempotent_union (current derived : List (List Char)) :
    unionTags (unionTags current derived) derived = unionTags current derived
    ∧ (∀ t ∈ current, t ∈ finalTaskTags current derived)
    ∧ (∀ t ∈ tagLoop [] (current.map normalize) (unionTags current derived),
        normalize t ∉ current.map normalize) := by
  refine ⟨unionTags_merge_idem current derived, ?_, ?_⟩
  · intro t ht
    unfold finalTaskTags
    obtain ⟨rest, hrest⟩ := foldl_addTag_prefix
      (tagLoop [] (current.map normalize) (unionTags current derived)) current
    rw [hrest, List.mem_append]
    exact Or.inl ht
  · intro t ht
    exact tagLoop_sends_new [] _ _ t ht

/-- Closed witness for C6 at concrete tag sets. -/
theorem claim_C6_witness :
    unionTags (unionTags ["Foo".data, "bar".data] ["FOO".data, "baz".data])
        ["FOO".data, "baz".data]
      = unionTags ["Foo".data, "bar".data] ["FOO".data, "baz".data]
    ∧ "Foo".data ∈ finalTaskTags ["Foo".data, "bar".data] ["FOO".data, "baz".data] := by
  refine ⟨(claim_C6_tag_merge_idempotent_union _ _).1, ?_⟩
  exact (claim_C6_tag_merge_idempotent_union ["Foo".data, "bar".data]
    ["FOO".data, "baz".data]).2.1 "Foo".data (by decide)

/-! ## C1: mutual exclusion and outcomes of the per-email lock -/

theorem lockInv_init (store0 : Bool) : lockInv store0 (initLock store0) = true := by
  cases store0 <;> decide

theorem lockInv_step :
    ∀ (store0 locked store : Bool) (p1 p2 : TPC) (tid : Bool),
      lockInv store0 ⟨locked, store, p1, p2⟩ = true →
      lockInv store0 (stepT ⟨locked, store, p1, p2⟩ tid) = true := by
  decide

theorem lockInv_runSched (store0 : Bool) :
    ∀ (sched : List Bool) (s : LockState), lockInv store0 s = true →
      lockInv store0 (runSched s sched) = true := by
  intro sched
  induction sched with
  | nil => intro s h; exact h
  | cons tid rest ih =>
    intro s h
    rw [runSched]
    rcases s with ⟨l, st, p1, p2⟩
    exact ih _ (lockInv_step store0 l st p1 p2 tid h)

theorem lockInv_consequences :
    ∀ (store0 locked store : Bool) (p1 p2 : TPC),
      lockInv store0 ⟨locked, store, p1, p2⟩ = true →
      (¬(pastLookup p1 = true ∧ pastLookup p2 = true))
      ∧ (∀ c1 c2, p1 = .done c1 → p2 = .done c2 →
          ((store0 = false → c1 = !c2) ∧ (store0 = true → c1 = false ∧ c2 = false))) := by
  decide

/-- **C1** — Per-key mutual exclusion of the `withEmailLock` system: for
two concurrent reconciliations of the same normalized email key, under
every interleaving of the event loop, at most one is past lookup at any
instant; and when both reach terminal states, exactly one is `created` and
the other `updated` if no task existed initially (`store0 = false`), and
both are `updated` if a task already existed (`store0 = true`). -/
theorem claim_C1_email_lock_mutual_exclusion (store0 : Bool) (sched : List Bool) :
    (¬(pastLookup (runSched (initLock store0) sched).pc1 = true
        ∧ pastLookup (runSched (initLock store0) sched).pc2 = true))
    ∧ (∀ c1 c2, (runSched (initLock store0) sched).pc1 = .done c1 →
        (runSched (initLock store0) sched).pc2 = .done c2 →
        ((store0 = false → c1 = !c2) ∧ (store0 = true → c1 = false ∧ c2 = false))) := by
  have hinv : lockInv store0 (runSched (initLock store0) sched) = true :=
    lockInv_runSched store0 sched _ (lockInv_init store0)
  rcases hs : runSched (initLock store0) sched with ⟨l, st, p1, p2⟩
  rw [hs] at hinv
  exact lockInv_consequences store0 l st p1 p2 hinv

/-- Closed witness for C1: a schedule on an initially-absent task in which
the first reconciliation runs to completion and then the second; the first
ends `created`, the second `updated`. -/
theorem claim_C1_witness :
    (runSched (initLock false) [false, false, false, false, true, true, true, true]).pc1
      = TPC.done true
    ∧ (runSched (initLock false) [false, false, false, false, true, true, true, true]).pc2
      = TPC.done false
    ∧ (true : Bool) = !false := by
  refine ⟨by decide, by decide, ?_⟩
  exact ((claim_C1_email_lock_mutual_exclusion false
    [false, false, false, false, true, true, true, true]).2 true false
    (by decide) (by decide)).1 rfl

/-! ## C2: fate of individual write failures on the update path -/

/-- A tag-send failure aborts the remaining tag sends (the `try` wraps the
whole loop). -/
theorem tagLoop_fail_head (tagFails seen : List (List Char)) (t : List Char)
    (ts : List (List Char)) (hf : t ∈ tagFails) (hn : normalize t ∉ seen) :
    tagLoop tagFails seen (t :: ts) = [t] := by
  rw [tagLoop, if_neg hn, if_pos hf]

def c2sch : SchemaFields := ⟨none, none, none, none⟩

def c2lead : LeadM := ⟨"a".data, none, none, none, none, none, .undef, none⟩

def c2env : UpdateEnv := ⟨⟨"a".data, [], [], []⟩, none, none, none⟩

def c2wf : WriteFails := ⟨false, [], false, [], true⟩

/-- Counterexample to C2 as stated: with every write succeeding except the
audit comment, the primary PUT succeeds (`putTask ∈ ops`) but the lead's
outcome is not `updated` — the comment failure is not swallowed and the
per-lead catch turns the outcome into `skipped`. -/
theorem claim_C2_counterexample :
    (runUpdate c2sch c2lead [] [] c2env c2wf).1 = false
    ∧ UOp.putTask none none ∈ (runUpdate c2sch c2lead [] [] c2env c2wf).2
    ∧ UOp.postComment ∈ (runUpdate c2sch c2lead [] [] c2env c2wf).2
    ∧ c2wf.putFails = false ∧ c2wf.valorFails = false ∧ c2wf.fieldFails = []
    ∧ c2wf.tagFails = [] ∧ c2wf.commentFails = true := by
  refine ⟨by decide, by decide, by decide, rfl, rfl, rfl, rfl, rfl⟩

/-- **C2 (amended)** — On the update path, failures of the per-field
custom-field writes are swallowed individually: every field update is
attempted regardless of which field writes fail, and the outcome stays
`updated` as long as the PUT, the sale-amount write and the comment write
succeed; a tag-send failure also keeps the outcome `updated` but aborts
the remaining tag sends. -/
theorem claim_C2_field_failures_swallowed (sch : SchemaFields) (lead : LeadM)
    (derivedTags : List (List Char)) (dateBr : List Char) (env : UpdateEnv) (wf : WriteFails)
    (hput : wf.putFails = false) (hval : wf.valorFails = false)
    (hcom : wf.commentFails = false) :
    (runUpdate sch lead derivedTags dateBr env wf).1 = true
    ∧ (∀ f ∈ computeFieldUpdates sch lead (formatPhoneE164 lead.whatsapp)
          (dedupFirst ((prodReadPair sch env).2 ++ produtoOptionIdsOf sch lead)),
        UOp.setField f.1 f.2 (!(wf.fieldFails.contains f.1))
          ∈ (runUpdate sch lead derivedTags dateBr env wf).2)
    ∧ (∀ (seen : List (List Char)) (t : List Char) (ts : List (List Char)),
        t ∈ wf.tagFails → normalize t ∉ seen →
        tagLoop wf.tagFails seen (t :: ts) = [t]) := by
  refine ⟨?_, ?_, fun seen t ts hf hn => tagLoop_fail_head wf.tagFails seen t ts hf hn⟩
  · unfold runUpdate
    rw [if_neg (by simp [hput])]
    cases hv : (valorReadPair lead env).2 with
    | some tot =>
      simp only [hv]
      rw [if_neg (by simp [hval])]
      unfold finishTagsAndComment
      simp [hcom]
    | none =>
      simp only [hv]
      unfold finishTagsAndComment
      simp [hcom]
  · intro f hf
    unfold runUpdate
    rw [if_neg (by simp [hput])]
    have hmem : UOp.setField f.1 f.2 (!(wf.fieldFails.contains f.1))
        ∈ (computeFieldUpdates sch lead (formatPhoneE164 lead.whatsapp)
            (dedupFirst ((prodReadPair sch env).2 ++ produtoOptionIdsOf sch lead))).map
          (fun g => UOp.setField g.1 g.2 (!(wf.fieldFails.contains g.1))) :=
      List.mem_map_of_mem _ hf
    cases hv : (valorReadPair lead env).2 with
    | some tot =>
      simp only [hv]
      rw [if_neg (by simp [hval])]
      unfold finishTagsAndComment
      simp only [List.mem_append]
      tauto
    | none =>
      simp only [hv]
      unfold finishTagsAndComment
      simp only [List.mem_append]
      tauto

def c2wsch : SchemaFields := ⟨none, none, none, none⟩

def c2wlead : LeadM := ⟨"a".data, some "x@y.z".data, none, none, none, none, .undef, none⟩

def c2wenv : UpdateEnv := ⟨⟨"a".data, [], [], []⟩, none, none, none⟩

def c2wwf : WriteFails := ⟨false, [EMAIL_CUSTOM_FIELD_ID], false, [], false⟩

/-- Closed witness for the amended C2: the email field write fails, is
still attempted, and the outcome stays `updated`. -/
theorem claim_C2_witness :
    (runUpdate c2wsch c2wlead [] [] c2wenv c2wwf).1 = true
    ∧ UOp.setField EMAIL_CUSTOM_FIELD_ID (CFVal.s "x@y.z".data) false
        ∈ (runUpdate c2wsch c2wlead [] [] c2wenv c2wwf).2 := by
  have h := claim_C2_field_failures_swallowed c2wsch c2wlead [] [] c2wenv c2wwf rfl rfl rfl
  refine ⟨h.1, ?_⟩
  have hm := h.2.1 (EMAIL_CUSTOM_FIELD_ID, CFVal.s "x@y.z".data) (by decide)
  have hok : (!(c2wwf.fieldFails.contains EMAIL_CUSTOM_FIELD_ID)) = false := by decide
  rw [hok] at hm
  exact hm

/-! ## C4: currency parsing and aggregation -/

def c4sch : SchemaFields := ⟨none, none, none, none⟩

def c4lead : LeadM := ⟨"a".data, none, none, none, none, none, .str "R$ 1.234,56".data, none⟩

def c4env : UpdateEnv :=
  ⟨⟨"a".data, [], [], []⟩, none,
    some ⟨"a".data, [], [], [(VALOR_VENDA_CUSTOM_FIELD_ID, CFVal.n 100)]⟩, none⟩

def c4wf : WriteFails := ⟨false, [], false, [], false⟩

theorem c4_parse : parseCurrencyToNumber (.str "R$ 1.234,56".data) = some (123456 / 100 : ℚ) := by
  have h1 : parseCurrencyToNumber (.str "R$ 1.234,56".data)
      = some ((digitsToNat "1234".data : ℚ)
          + (digitsToNat "56".data : ℚ) / (10 : ℚ) ^ ("56".data.length)) := rfl
  have h2 : digitsToNat "1234".data = 1234 := by decide
  have h3 : digitsToNat "56".data = 56 := by decide
  have h4 : ("56".data).length = 2 := by decide
  rw [h1, h2, h3, h4, Option.some_inj]
  norm_num

theorem c4_truthy : jsTruthyNum (some (123456 / 100 : ℚ)) = true := by
  simp only [jsTruthyNum, decide_eq_true_eq]
  norm_num

theorem c4_pair : valorReadPair c4lead c4env = ([UOp.readFreshValor], some (133456 / 100 : ℚ)) := by
  have hp : parseCurrencyToNumber c4lead.valor = some (123456 / 100 : ℚ) := c4_parse
  unfold valorReadPair
  simp only [hp]
  rw [if_pos c4_truthy]
  have hcur : (match c4env.freshValor with
      | some f => (parseCurrencyOfCF (getCF f VALOR_VENDA_CUSTOM_FIELD_ID)).getD 0
      | none => 0) = (100 : ℚ) := rfl
  rw [hcur]
  have hgd : (some (123456 / 100 : ℚ)).getD 0 = 123456 / 100 := rfl
  rw [hgd]
  have hsum : (100 : ℚ) + 123456 / 100 = 133456 / 100 := by norm_num
  rw [hsum]

theorem c4_run : runUpdate c4sch c4lead [] [] c4env c4wf
    = (true, [UOp.readFreshValor, UOp.putTask none none,
        UOp.setField VALOR_VENDA_CUSTOM_FIELD_ID
          (CFVal.s (toClickUpCurrency (133456 / 100 : ℚ))) true,
        UOp.postComment]) := by
  unfold runUpdate
  rw [c4_pair]
  rfl

theorem c4_render : toClickUpCurrency (133456 / 100 : ℚ) = "1334.56".data := by
  have hneg : ¬((133456 : ℚ) / 100 < 0) := by norm_num
  unfold toClickUpCurrency toFixed2
  rw [if_neg (by norm_num : ¬(((133456 : ℚ) / 100).den = 1))]
  simp only [if_neg hneg]
  have hfloor : (⌊(133456 / 100 : ℚ) * 100 + 1 / 2⌋) = 133456 := by norm_num
  rw [hfloor]
  decide

/-- **C4** — `"R$ 1.234,56"` parses to 1234.56 (currency marker stripped,
thousands dots removed, comma as decimal separator); on the update path the
engine fresh-reads the aggregate (here 100), adds the parsed amount, and
writes back `1334.56` to the sale-amount field — a running total rather
than an overwrite. -/
theorem claim_C4_aggregate_running_total :
    parseCurrencyToNumber (.str "R$ 1.234,56".data) = some (123456 / 100 : ℚ)
    ∧ valorReadPair c4lead c4env = ([UOp.readFreshValor], some ((100 : ℚ) + 123456 / 100))
    ∧ toClickUpCurrency (133456 / 100 : ℚ) = "1334.56".data
    ∧ UOp.setField VALOR_VENDA_CUSTOM_FIELD_ID (CFVal.s "1334.56".data) true
        ∈ (runUpdate c4sch c4lead [] [] c4env c4wf).2
    ∧ (runUpdate c4sch c4lead [] [] c4env c4wf).1 = true := by
  have hsum : (100 : ℚ) + 123456 / 100 = 133456 / 100 := by norm_num
  refine ⟨c4_parse, ?_, c4_render, ?_, ?_⟩
  · rw [c4_pair, hsum]
  · rw [c4_run, c4_render]
    simp
  · rw [c4_run]

/-! ## C3: product-option resolution -/

theorem normalizedLabelToId_sound {options : List OptionDef} {key j : List Char}
    (h : normalizedLabelToId options key = some j) : j ∈ options.map (·.id) := by
  unfold normalizedLabelToId at h
  rw [Option.map_eq_some'] at h
  obtain ⟨o, ho, hj⟩ := h
  have hmem := List.mem_of_find?_eq_some ho
  rw [List.mem_reverse, List.mem_filter] at hmem
  rw [← hj]
  exact List.mem_map_of_mem _ hmem.1

theorem matchProdutoLabel_sound {options : List OptionDef} {trimmed i : List Char}
    (h : matchProdutoLabel options trimmed = some i) : i ∈ options.map (·.id) := by
  unfold matchProdutoLabel at h
  by_cases h1 : trimmed ∈ options.map (·.id)
  · rw [if_pos h1, Option.some_inj] at h
    exact h ▸ h1
  · rw [if_neg h1] at h
    cases h2 : normalizedLabelToId options (normalize trimmed) with
    | some j =>
      rw [h2, Option.some_inj] at h
      exact h ▸ normalizedLabelToId_sound h2
    | none =>
      rw [h2] at h
      have h3 : (options.find? (fun o =>
          includesSub (normalize o.label) (normalize trimmed)
          || includesSub (normalize trimmed) (normalize o.label))).map (·.id) = some i := h
      rw [Option.map_eq_some'] at h3
      obtain ⟨o, ho, hj⟩ := h3
      rw [← hj]
      exact List.mem_map_of_mem _ (List.mem_of_find?_eq_some ho)

theorem matchProdutoLabel_none {options : List OptionDef} {trimmed : List Char}
    (h1 : trimmed ∉ options.map (·.id))
    (h2 : ∀ o ∈ options, ¬(o.label ≠ [] ∧ normalize o.label = normalize trimmed))
    (h3 : ∀ o ∈ options, includesSub (normalize o.label) (normalize trimmed) = false
        ∧ includesSub (normalize trimmed) (normalize o.label) = false) :
    matchProdutoLabel options trimmed = none := by
  unfold matchProdutoLabel
  rw [if_neg h1]
  have hmap : normalizedLabelToId options (normalize trimmed) = none := by
    unfold normalizedLabelToId
    have hfind : (options.filter (fun o => o.label ≠ [])).reverse.find?
        (fun o => normalize o.label = normalize trimmed) = none := by
      rw [List.find?_eq_none]
      intro o ho
      rw [List.mem_reverse, List.mem_filter] at ho
      simp only [decide_eq_true_eq]
      intro hp
      refine h2 o ho.1 ⟨?_, hp⟩
      have := ho.2
      simpa using this
    rw [hfind]
    rfl
  rw [hmap]
  show (options.find? (fun o =>
      includesSub (normalize o.label) (normalize trimmed)
      || includesSub (normalize trimmed) (normalize o.label))).map (·.id) = none
  have hfind3 : options.find? (fun o =>
      includesSub (normalize o.label) (normalize trimmed)
      || includesSub (normalize trimmed) (normalize o.label)) = none := by
    rw [List.find?_eq_none]
    intro o ho
    rw [(h3 o ho).1, (h3 o ho).2]
    simp
  rw [hfind3]
  rfl

/-- **C3 (amended)** — The import-path resolver follows the three tiers
with first match winning: a verbatim option id short-circuits, the
normalized-exact and approximate tiers only return existing option ids, a
label matching no tier is dropped silently, and the result is deduplicated
(first-seen order).  The `/tasks` lead path, by contrast, applies only
tiers 1–2: a label matchable only approximately is dropped there, and its
result is not deduplicated. -/
theorem claim_C3_three_tier_resolution (options : List OptionDef)
    (productList : List (List Char)) :
    (∀ i ∈ resolveProdutoOptionIds options productList, i ∈ options.map (·.id))
    ∧ (resolveProdutoOptionIds options productList).Nodup
    ∧ (∀ trimmed ∈ options.map (·.id), matchProdutoLabel options trimmed = some trimmed)
    ∧ (∀ trimmed, trimmed ∉ options.map (·.id) →
        (∀ o ∈ options, ¬(o.label ≠ [] ∧ normalize o.label = normalize trimmed)) →
        (∀ o ∈ options, includesSub (normalize o.label) (normalize trimmed) = false
            ∧ includesSub (normalize trimmed) (normalize o.label) = false) →
        matchProdutoLabel options trimmed = none)
    ∧ (∀ raw, jsTrim raw ∉ options.map (·.id) →
        normalizedLabelToId options (normalize (jsTrim raw)) = none →
        resolveChosenOptionIds options [raw] = []) := by
  refine ⟨?_, nodup_dedupFirst _, ?_, ?_, ?_⟩
  · intro i hi
    unfold resolveProdutoOptionIds at hi
    rw [mem_dedupFirst, List.mem_filterMap] at hi
    obtain ⟨raw, _, hraw⟩ := hi
    by_cases hz : jsTrim raw = []
    · rw [if_pos hz] at hraw
      exact absurd hraw (by simp)
    · rw [if_neg hz] at hraw
      exact matchProdutoLabel_sound hraw
  · intro trimmed ht
    unfold matchProdutoLabel
    rw [if_pos ht]
  · intro trimmed h1 h2 h3
    exact matchProdutoLabel_none h1 h2 h3
  · intro raw h1 h2
    unfold resolveChosenOptionIds
    rw [List.filterMap_cons]
    by_cases hz : jsTrim raw = []
    · rw [if_pos hz]
      rfl
    · rw [if_neg hz, if_neg h1, h2]
      rfl

def c3opts : List OptionDef := [⟨"o1".data, "alpha beta".data⟩]

def c3optsB : List OptionDef := [⟨"o1".data, "x".data⟩]

/-- Counterexample to C3 as stated: the `/tasks` lead-path resolution
(`chosenOptionIds`) does not implement the approximate third tier — a
label whose normalization is a substring of an option label resolves on
the import path but is dropped on the `/tasks` path — and it does not
deduplicate: two labels resolving to the same option id yield that id
twice. -/
theorem claim_C3_counterexample :
    resolveProdutoOptionIds c3opts ["alpha".data] = ["o1".data]
    ∧ resolveChosenOptionIds c3opts ["alpha".data] = []
    ∧ resolveChosenOptionIds c3optsB ["x".data, "x ".data] = ["o1".data, "o1".data] := by
  refine ⟨by decide, by decide, by decide⟩

/-- Closed witness for the amended C3 at a concrete option set. -/
theorem claim_C3_witness :
    "o1".data ∈ c3opts.map (·.id)
    ∧ resolveChosenOptionIds c3opts ["zzz".data] = [] := by
  constructor
  · decide
  · exact (claim_C3_three_tier_resolution c3opts []).2.2.2.2 "zzz".data
      (by decide) (by decide)

/-! ## C8: the paginated email scan -/

theorem scanPagesLoop_eq_find (pages : Nat → List RTask) (target : List Char)
    (idsToCheck : List (List Char)) :
    ∀ (fuel page : Nat), scanPagesLoop pages target idsToCheck fuel page
      = (visitedTasks pages fuel page).find? (taskEmailMatches target idsToCheck) := by
  intro fuel
  induction fuel with
  | zero => intro page; rfl
  | succ n ih =>
    intro page
    rw [scanPagesLoop, visitedTasks]
    by_cases he : pages page = []
    · rw [if_pos he, if_pos he]
      rfl
    · rw [if_neg he, if_neg he, List.find?_append]
      cases hf : (pages page).find? (taskEmailMatches target idsToCheck) with
      | some t => simp [hf]
      | none => simp [hf, ih]

/-- **C8 (amended)** — The fallback scan returns the first task, in page
order (pages concatenated, stopping at the first empty page, at most 50
pages), accepted by `taskEmailMatches`: per task only the FIRST custom
field (in the task's own field order) whose id is among the candidate ids
and whose value is a string is consulted, and the task is returned exactly
when that one value, trimmed and lowercased, equals the trimmed, lowercased
target email.  Candidate ids are the passed list (resolved id first,
static fallback second), or the static fallback alone when none are
passed; an empty target returns nothing. -/
theorem claim_C8_first_candidate_field_scan (pages : Nat → List RTask) (email : List Char)
    (fieldIds : List (List Char)) :
    (toLowerChars (jsTrim email) ≠ [] →
      findTaskByEmailOnList pages email fieldIds
        = (visitedTasks pages 50 0).find?
            (taskEmailMatches (toLowerChars (jsTrim email))
              (if fieldIds ≠ [] then fieldIds else [EMAIL_CUSTOM_FIELD_ID])))
    ∧ (toLowerChars (jsTrim email) = [] → findTaskByEmailOnList pages email fieldIds = none)
    ∧ (∀ t, taskEmailMatches (toLowerChars (jsTrim email))
          (if fieldIds ≠ [] then fieldIds else [EMAIL_CUSTOM_FIELD_ID]) t = true →
        ∃ fid v, findCandidateCF
            (if fieldIds ≠ [] then fieldIds else [EMAIL_CUSTOM_FIELD_ID]) t = some (fid, some v)
          ∧ toLowerChars (jsTrim v) = toLowerChars (jsTrim email)) := by
  refine ⟨?_, ?_, ?_⟩
  · intro h
    unfold findTaskByEmailOnList
    rw [if_neg (by simpa using h)]
    exact scanPagesLoop_eq_find pages _ _ 50 0
  · intro h
    unfold findTaskByEmailOnList
    rw [if_pos (by simpa using h)]
  · intro t ht
    unfold taskEmailMatches at ht
    cases hc : findCandidateCF
        (if fieldIds ≠ [] then fieldIds else [EMAIL_CUSTOM_FIELD_ID]) t with
    | none => rw [hc] at ht; simp at ht
    | some cf =>
      rcases cf with ⟨fid, v?⟩
      cases v? with
      | none => rw [hc] at ht; simp at ht
      | some v =>
        rw [hc] at ht
        simp only [beq_iff_eq] at ht
        exact ⟨fid, v, rfl, ht⟩

def c8ResolvedId : List Char := "resolved-field-id".data

def c8Task : RTask :=
  ⟨"t1".data, [(EMAIL_CUSTOM_FIELD_ID, some "a@b".data), (c8ResolvedId, some "t@t".data)]⟩

def c8Pages : Nat → List RTask := fun p => if p = 0 then [c8Task] else []

/-- Counterexample to C8 as stated: the task on page 0 has a candidate
custom field (the dynamically resolved, first-priority id) whose string
value equals the target exactly, yet the scan returns nothing — only the
task's first candidate field (the static fallback id, which comes first in
the task's own field order and holds a different address) is consulted. -/
theorem claim_C8_counterexample :
    (c8ResolvedId, some "t@t".data) ∈ c8Task.cfs
    ∧ toLowerChars (jsTrim "t@t".data) = "t@t".data
    ∧ findTaskByEmailOnList c8Pages "t@t".data [c8ResolvedId, EMAIL_CUSTOM_FIELD_ID] = none := by
  refine ⟨by decide, by decide, by decide⟩

def c8wTask : RTask := ⟨"t2".data, [(EMAIL_CUSTOM_FIELD_ID, some " X@Y ".data)]⟩

def c8wPages : Nat → List RTask := fun p => if p = 0 then [c8wTask] else []

/-- Closed witness for the amended C8. -/
theorem claim_C8_witness :
    findTaskByEmailOnList c8wPages "x@y".data []
      = (visitedTasks c8wPages 50 0).find? (taskEmailMatches (toLowerChars (jsTrim "x@y".data))
          (if ([] : List (List Char)) ≠ [] then [] else [EMAIL_CUSTOM_FIELD_ID]))
    ∧ findTaskByEmailOnList c8wPages "x@y".data [] = some c8wTask := by
  constructor
  · exact (claim_C8_first_candidate_field_scan c8wPages "x@y".data []).1 (by decide)
  · decide

/-! ## C7: per-lead failure isolation in the `/import` loop -/

/-- **C7** — A remote-call failure (a throw reaching the per-lead `catch`)
aborts only the lead that raised it: that lead's entry is `skipped` with
the error payload attached, every lead still gets exactly one entry, and
every other lead's entry is whatever its own reconciliation produced,
independent of its siblings. -/
theorem claim_C7_per_lead_failure_isolation
    (recon : LeadM → Except (List Char) ImportResult) (leads : List LeadM) :
    (processLeads recon leads).length = leads.length
    ∧ (∀ (i : Nat) (l : LeadM) (e : List Char), leads[i]? = some l → recon l = .error e →
        (processLeads recon leads)[i]? = some (skippedResult l e))
    ∧ (∀ (i : Nat) (l : LeadM) (r : ImportResult), leads[i]? = some l → recon l = .ok r →
        (processLeads recon leads)[i]? = some r) := by
  induction leads with
  | nil =>
    refine ⟨rfl, ?_, ?_⟩ <;> (intro i l e h _; simp at h)
  | cons x xs ih =>
    refine ⟨?_, ?_, ?_⟩
    · rw [processLeads]
      simp [ih.1]
    · intro i l e hl hr
      cases i with
      | zero =>
        simp only [List.getElem?_cons_zero, Option.some_inj] at hl
        rw [processLeads]
        simp only [List.getElem?_cons_zero, Option.some_inj]
        subst hl
        rw [hr]
      | succ n =>
        simp only [List.getElem?_cons_succ] at hl
        rw [processLeads]
        simp only [List.getElem?_cons_succ]
        exact ih.2.1 n l e hl hr
    · intro i l r hl hr
      cases i with
      | zero =>
        simp only [List.getElem?_cons_zero, Option.some_inj] at hl
        rw [processLeads]
        simp only [List.getElem?_cons_zero, Option.some_inj]
        subst hl
        rw [hr]
      | succ n =>
        simp only [List.getElem?_cons_succ] at hl
        rw [processLeads]
        simp only [List.getElem?_cons_succ]
        exact ih.2.2 n l r hl hr

def c7good : LeadM := ⟨"ok".data, some "g@x.z".data, none, none, none, none, .undef, none⟩

def c7bad : LeadM := ⟨"bad".data, some "b@x.z".data, none, none, none, none, .undef, none⟩

def c7recon : LeadM → Except (List Char) ImportResult := fun l =>
  if l.nome = "bad".data then .error "remote exploded".data
  else .ok ⟨l.email, .created, some "T1".data, none⟩

/-- Closed witness for C7: in a two-lead batch where the second lead's
reconciliation throws, the second entry is `skipped` with the error and the
first entry is its own `created` result. -/
theorem claim_C7_witness :
    (processLeads c7recon [c7good, c7bad]).length = 2
    ∧ (processLeads c7recon [c7good, c7bad])[1]?
        = some (skippedResult c7bad "remote exploded".data)
    ∧ (processLeads c7recon [c7good, c7bad])[0]?
        = some ⟨c7good.email, .created, some "T1".data, none⟩ := by
  refine ⟨(claim_C7_per_lead_failure_isolation c7recon [c7good, c7bad]).1, ?_, ?_⟩
  · exact (claim_C7_per_lead_failure_isolation c7recon [c7good, c7bad]).2.1 1 c7bad
      "remote exploded".data (by decide) rfl
  · exact (claim_C7_per_lead_failure_isolation c7recon [c7good, c7bad]).2.2 0 c7good
      ⟨c7good.email, .created, some "T1".data, none⟩ (by decide) rfl

/-! ## C9: CSV rows with missing required identity fields -/

def c9row1 : RowPayload :=
  ⟨"Curso X".data, "Maria".data, [], [], [], "10".data, []⟩

def c9row2 : RowPayload :=
  ⟨"Curso X".data, "Joana".data, "j@x.z".data, [], [], "10".data, []⟩

/-- **C9** — A CSV row missing a required identity field (email, name or
product) is counted as `skipped` with the descriptive
"Campos obrigatórios ausentes (email/nome/produto)" error entry, gets the
`erro` status, and triggers no remote call — the worker returns normally
(no exception).  In a two-row batch (one valid row, one missing its
email), the summary shows one processed/created row and one skipped row
with exactly that error entry, and the only remote call is for the valid
row. -/
theorem claim_C9_missing_required_fields
    (remote : RowPayload → Except (List Char) RemoteReply)
    (st : Summary) (row : RowPayload) (ln : Nat)
    (hmiss : row.email = [] ∨ row.nome = [] ∨ row.produto = []) :
    (processRow remote st row ln).2.2 = []
    ∧ (processRow remote st row ln).2.1 = RowStatus.erro
    ∧ (processRow remote st row ln).1.skipped = st.skipped + 1
    ∧ (processRow remote st row ln).1.processed = st.processed
    ∧ (processRow remote st row ln).1.created = st.created
    ∧ (processRow remote st row ln).1.updated = st.updated
    ∧ (processRow remote st row ln).1.errors = st.errors ++ [(ln, row.email, missingFieldsMsg)]
    ∧ (∀ remote2 : RowPayload → Except (List Char) RemoteReply,
        remote2 c9row2 = .ok RemoteReply.created →
        processBatch remote2 ⟨0, 0, 0, 0, []⟩ [(c9row1, 2), (c9row2, 3)]
          = (⟨1, 1, 0, 1, [(2, [], missingFieldsMsg)]⟩,
             [RowStatus.erro, RowStatus.sim], [c9row2])) := by
  have hrow : processRow remote st row ln
      = ({ st with
            skipped := st.skipped + 1
            errors := st.errors ++ [(ln, row.email, missingFieldsMsg)] }, .erro, []) := by
    unfold processRow
    rw [if_pos hmiss]
  refine ⟨by rw [hrow], by rw [hrow], by rw [hrow], by rw [hrow], by rw [hrow],
    by rw [hrow], by rw [hrow], ?_⟩
  intro remote2 h2
  unfold processBatch processBatch processBatch processRow
  rw [if_pos (by decide : c9row1.email = [] ∨ c9row1.nome = [] ∨ c9row1.produto = [])]
  simp only [h2,
    if_neg (show ¬(c9row2.email = [] ∨ c9row2.nome = [] ∨ c9row2.produto = []) by decide)]
  rfl

/-- Closed witness for C9 at a concrete summary state and row. -/
theorem claim_C9_witness :
    (processRow (fun _ => .ok RemoteReply.created) ⟨0, 0, 0, 0, []⟩ c9row1 2).2.2 = []
    ∧ (processRow (fun _ => .ok RemoteReply.created) ⟨0, 0, 0, 0, []⟩ c9row1 2).1.skipped = 1
    ∧ (processRow (fun _ => .ok RemoteReply.created) ⟨0, 0, 0, 0, []⟩ c9row1 2).1.errors
        = [(2, [], missingFieldsMsg)] := by
  have h := claim_C9_missing_required_fields (fun _ => .ok RemoteReply.created)
    ⟨0, 0, 0, 0, []⟩ c9row1 2 (by decide)
  exact ⟨h.1, h.2.2.1, h.2.2.2.2.2.2.1⟩

/-! ## C10: a zero amount behaves as no amount -/

/-- The exact operation sequence of the update path, for every failure
pattern. -/
theorem runUpdate_ops_eq (sch : SchemaFields) (lead : LeadM)
    (derivedTags : List (List Char)) (dateBr : List Char) (env : UpdateEnv) (wf : WriteFails) :
    (runUpdate sch lead derivedTags dateBr env wf).2
      = (prodReadPair sch env).1 ++ (valorReadPair lead env).1 ++ (descPair lead dateBr env).1
        ++ [UOp.putTask (nameChangeOf lead env) (descPair lead dateBr env).2]
        ++ (if wf.putFails then [] else
            (computeFieldUpdates sch lead (formatPhoneE164 lead.whatsapp)
                (dedupFirst ((prodReadPair sch env).2 ++ produtoOptionIdsOf sch lead))).map
              (fun f => UOp.setField f.1 f.2 (!(wf.fieldFails.contains f.1)))
            ++ (match (valorReadPair lead env).2 with
                | some tot =>
                  UOp.setField VALOR_VENDA_CUSTOM_FIELD_ID
                      (CFVal.s (toClickUpCurrency tot)) (!wf.valorFails)
                    :: (if wf.valorFails then [] else
                        (tagLoop wf.tagFails (env.existing.tags.map normalize)
                            (unionTags env.existing.tags derivedTags)).map UOp.addTag
                          ++ [UOp.postComment])
                | none =>
                  (tagLoop wf.tagFails (env.existing.tags.map normalize)
                      (unionTags env.existing.tags derivedTags)).map UOp.addTag
                    ++ [UOp.postComment])) := by
  unfold runUpdate
  by_cases hput : wf.putFails = true
  · simp only [if_pos hput]
    simp [List.append_assoc]
  · simp only [if_neg hput]
    cases hv : (valorReadPair lead env).2 with
    | some tot =>
      simp only [hv]
      by_cases hvf : wf.valorFails = true
      · simp only [if_pos hvf]
        simp [List.append_assoc]
      · simp only [if_neg hvf, finishTagsAndComment]
        simp [List.append_assoc]
    | none =>
      simp only [hv, finishTagsAndComment]
      simp [List.append_assoc]

theorem prodReadPair_ops (sch : SchemaFields) (env : UpdateEnv) :
    (prodReadPair sch env).1 = [] ∨ (prodReadPair sch env).1 = [UOp.readFreshProdutos] := by
  unfold prodReadPair
  cases sch.produtosField with
  | none => exact Or.inl rfl
  | some pf => exact Or.inr rfl

theorem computeFieldUpdates_ids {sch : SchemaFields} {lead : LeadM}
    {phone : Option (List Char)} {merged : List (List Char)} {f : List Char × CFVal}
    (h : f ∈ computeFieldUpdates sch lead phone merged) :
    f.1 = sch.emailField.elim EMAIL_CUSTOM_FIELD_ID (·.id)
    ∨ (∃ wfd, sch.whatsappField = some wfd ∧ f.1 = wfd.id)
    ∨ f.1 = sch.cpfField.elim CPF_CUSTOM_FIELD_ID (·.id)
    ∨ (∃ pf, sch.produtosField = some pf ∧ f.1 = pf.id) := by
  unfold computeFieldUpdates at h
  simp only [List.mem_append] at h
  rcases h with ((h | h) | h) | h
  · left
    split at h
    · simp only [List.mem_singleton] at h
      rw [h]
    · simp at h
  · right; left
    rcases phone with _ | p <;> rcases hwf : sch.whatsappField with _ | wfd <;>
      simp only [hwf, List.mem_singleton, List.not_mem_nil] at h
    exact ⟨wfd, rfl, by rw [h]⟩
  · right; right; left
    split at h
    · simp only [List.mem_singleton] at h
      rw [h]
    · simp at h
  · right; right; right
    rcases hpf : sch.produtosField with _ | pf <;> simp only [hpf] at h
    · simp at h
    · by_cases hm : merged ≠ []
      · rw [if_pos hm] at h
        simp only [List.mem_singleton] at h
        exact ⟨pf, rfl, by rw [h]⟩
      · rw [if_neg hm] at h
        simp at h

theorem valorReadPair_zero {lead : LeadM} (env : UpdateEnv)
    (hz : jsTruthyNum (parseCurrencyToNumber lead.valor) = false) :
    valorReadPair lead env = ([], none) := by
  unfold valorReadPair
  simp [hz]

theorem descPair_zero {lead : LeadM} (dateBr : List Char) (env : UpdateEnv)
    (hz : jsTruthyNum (parseCurrencyToNumber lead.valor) = false) :
    descPair lead dateBr env = ([], none) := by
  unfold descPair
  cases hh : (toArray lead.produtos).head? with
  | none => rfl
  | some p0 => simp [hz]

theorem runUpdate_mem_zero {sch : SchemaFields} {lead : LeadM}
    {derivedTags : List (List Char)} {dateBr : List Char} {env : UpdateEnv} {wf : WriteFails}
    (hjz : jsTruthyNum (parseCurrencyToNumber lead.valor) = false)
    {op : UOp} (h : op ∈ (runUpdate sch lead derivedTags dateBr env wf).2) :
    op = UOp.readFreshProdutos
    ∨ op = UOp.putTask (nameChangeOf lead env) none
    ∨ (∃ f ∈ computeFieldUpdates sch lead (formatPhoneE164 lead.whatsapp)
          (dedupFirst ((prodReadPair sch env).2 ++ produtoOptionIdsOf sch lead)),
        op = UOp.setField f.1 f.2 (!(wf.fieldFails.contains f.1)))
    ∨ (∃ t, op = UOp.addTag t)
    ∨ op = UOp.postComment := by
  rw [runUpdate_ops_eq] at h
  rw [valorReadPair_zero env hjz, descPair_zero dateBr env hjz] at h
  by_cases hput : wf.putFails = true
  · simp only [if_pos hput, List.append_nil, List.nil_append, List.mem_append,
      List.mem_singleton] at h
    rcases h with h | h
    · rcases prodReadPair_ops sch env with hp | hp <;> rw [hp] at h
      · exact absurd h (List.not_mem_nil op)
      · rw [List.mem_singleton] at h
        exact Or.inl h
    · exact Or.inr (Or.inl h)
  · simp only [if_neg hput, List.append_nil, List.nil_append, List.mem_append,
      List.mem_singleton, List.mem_map] at h
    rcases h with (h | h) | h | h | h
    · rcases prodReadPair_ops sch env with hp | hp <;> rw [hp] at h
      · exact absurd h (List.not_mem_nil op)
      · rw [List.mem_singleton] at h
        exact Or.inl h
    · exact Or.inr (Or.inl h)
    · obtain ⟨f, hf, he⟩ := h
      exact Or.inr (Or.inr (Or.inl ⟨f, hf, he.symm⟩))
    · obtain ⟨t, _, he⟩ := h
      exact Or.inr (Or.inr (Or.inr (Or.inl ⟨t, he.symm⟩)))
    · exact Or.inr (Or.inr (Or.inr (Or.inr h)))

theorem runCreateImport_cf_eq (sch : SchemaFields) (lead : LeadM)
    (derivedTags : List (List Char)) (dateBr : List Char) :
    (runCreateImport sch lead derivedTags dateBr).customFields
      = computeFieldUpdates sch lead (formatPhoneE164 lead.whatsapp) (produtoOptionIdsOf sch lead)
        ++ (if jsTruthyNum (parseCurrencyToNumber lead.valor) then
              [(VALOR_VENDA_CUSTOM_FIELD_ID,
                CFVal.s (toClickUpCurrency ((parseCurrencyToNumber lead.valor).getD 0)))]
            else []) := rfl

theorem runCreateImport_desc_zero {sch : SchemaFields} {lead : LeadM}
    {derivedTags : List (List Char)} {dateBr : List Char}
    (hjz : jsTruthyNum (parseCurrencyToNumber lead.valor) = false) :
    (runCreateImport sch lead derivedTags dateBr).description = none := by
  unfold runCreateImport
  cases hh : (toArray lead.produtos).head? <;> simp [hh, hjz]

theorem tasksLeadCreateParts_zero (valor : JsVal) (d0 : Option (List Char))
    (pl : List (List Char)) (dateBr : List Char)
    (hjz : jsTruthyNum (parseCurrencyToNumber valor) = false) :
    tasksLeadCreateParts valor d0 pl dateBr = (d0, none) := by
  unfold tasksLeadCreateParts
  cases hh : pl.head? <;> simp [hh, hjz]

/-- C10: a lead whose amount parses to the number 0 (as the strings `"0"`
and `"R$ 0,00"` do) is treated on every path as if it carried no amount:
on the update path the aggregate field is neither fresh-read
(`readFreshValor`) nor written (`setField` at the sale-amount id never
appears, assuming the schema's other field ids differ from it), the task
`PUT` carries no description rewrite and `descPair` appends no purchase
line even when a product is present; on the `/import` create path the
seeded description is `none` and no sale-amount custom field is included;
on the `/tasks` create path the description is passed through unchanged
and the sale-amount field is `none`. -/
theorem claim_C10_zero_amount_treated_as_absent
    (sch : SchemaFields) (lead : LeadM) (derivedTags : List (List Char))
    (dateBr : List Char) (env : UpdateEnv) (wf : WriteFails)
    (d0 : Option (List Char)) (pl : List (List Char))
    (hz : parseCurrencyToNumber lead.valor = some 0)
    (h1 : sch.emailField.elim EMAIL_CUSTOM_FIELD_ID (fun fd => fd.id)
      ≠ VALOR_VENDA_CUSTOM_FIELD_ID)
    (h2 : ∀ wfd, sch.whatsappField = some wfd → wfd.id ≠ VALOR_VENDA_CUSTOM_FIELD_ID)
    (h3 : sch.cpfField.elim CPF_CUSTOM_FIELD_ID (fun fd => fd.id)
      ≠ VALOR_VENDA_CUSTOM_FIELD_ID)
    (h4 : ∀ pf, sch.produtosField = some pf → pf.id ≠ VALOR_VENDA_CUSTOM_FIELD_ID) :
    UOp.readFreshValor ∉ (runUpdate sch lead derivedTags dateBr env wf).2
    ∧ (∀ v ok, UOp.setField VALOR_VENDA_CUSTOM_FIELD_ID v ok
        ∉ (runUpdate sch lead derivedTags dateBr env wf).2)
    ∧ (∀ nm d, UOp.putTask nm d ∈ (runUpdate sch lead derivedTags dateBr env wf).2 → d = none)
    ∧ descPair lead dateBr env = ([], none)
    ∧ (runCreateImport sch lead derivedTags dateBr).description = none
    ∧ (∀ v, (VALOR_VENDA_CUSTOM_FIELD_ID, v)
        ∉ (runCreateImport sch lead derivedTags dateBr).customFields)
    ∧ tasksLeadCreateParts lead.valor d0 pl dateBr = (d0, none)
    ∧ parseCurrencyToNumber (JsVal.str ['0']) = some 0
    ∧ parseCurrencyToNumber (JsVal.str "R$ 0,00".data) = some 0 := by
  have hjz : jsTruthyNum (parseCurrencyToNumber lead.valor) = false := by
    rw [hz]; simp [jsTruthyNum]
  refine ⟨?_, ?_, ?_, descPair_zero dateBr env hjz, runCreateImport_desc_zero hjz, ?_,
    tasksLeadCreateParts_zero lead.valor d0 pl dateBr hjz, ?_, ?_⟩
  · intro hmem
    rcases runUpdate_mem_zero hjz hmem with h | h | ⟨f, hf, h⟩ | ⟨t, h⟩ | h <;>
      exact UOp.noConfusion h
  · intro v ok hmem
    rcases runUpdate_mem_zero hjz hmem with h | h | ⟨f, hf, h⟩ | ⟨t, h⟩ | h
    · exact UOp.noConfusion h
    · exact UOp.noConfusion h
    · have hfid : f.1 = VALOR_VENDA_CUSTOM_FIELD_ID := by
        injection h with e1 e2 e3
        exact e1.symm
      rcases computeFieldUpdates_ids hf with hid | ⟨wfd, hwf, hid⟩ | hid | ⟨pf, hpf, hid⟩
      · exact h1 (by rw [← hid]; exact hfid)
      · exact h2 wfd hwf (by rw [← hid]; exact hfid)
      · exact h3 (by rw [← hid]; exact hfid)
      · exact h4 pf hpf (by rw [← hid]; exact hfid)
    · exact UOp.noConfusion h
    · exact UOp.noConfusion h
  · intro nm d hmem
    rcases runUpdate_mem_zero hjz hmem with h | h | ⟨f, hf, h⟩ | ⟨t, h⟩ | h
    · exact UOp.noConfusion h
    · injection h with e1 e2
    · exact UOp.noConfusion h
    · exact UOp.noConfusion h
    · exact UOp.noConfusion h
  · intro v hmem
    rw [runCreateImport_cf_eq] at hmem
    simp only [hjz, Bool.false_eq_true, if_false, List.append_nil] at hmem
    rcases computeFieldUpdates_ids hmem with hid | ⟨wfd, hwf, hid⟩ | hid | ⟨pf, hpf, hid⟩
    · exact h1 hid.symm
    · exact h2 wfd hwf hid.symm
    · exact h3 hid.symm
    · exact h4 pf hpf hid.symm
  · rw [show parseCurrencyToNumber (JsVal.str ['0']) = some ((digitsToNat ['0'] : ℚ)) from rfl,
      show digitsToNat ['0'] = 0 from rfl]
    norm_num
  · rw [show parseCurrencyToNumber (JsVal.str "R$ 0,00".data)
        = some ((digitsToNat "0".data : ℚ)
            + (digitsToNat "00".data : ℚ) / (10 : ℚ) ^ ("00".data.length)) from rfl,
      show digitsToNat "0".data = 0 from rfl, show digitsToNat "00".data = 0 from rfl,
      show ("00".data).length = 2 from rfl]
    norm_num

def c10sch : SchemaFields := ⟨none, none, none, none⟩

def c10lead : LeadM :=
  ⟨"z".data, some "z@x.y".data, none, none, some (.s "Curso X".data), none, .num 0, none⟩

def c10env : UpdateEnv := ⟨⟨"z".data, [], [], []⟩, none, none, none⟩

def c10wf : WriteFails := ⟨false, [], false, [], false⟩

theorem claim_C10_witness :
    parseCurrencyToNumber c10lead.valor = some 0
    ∧ (UOp.readFreshValor ∉ (runUpdate c10sch c10lead [] "01/01/2025".data c10env c10wf).2
      ∧ (∀ v ok, UOp.setField VALOR_VENDA_CUSTOM_FIELD_ID v ok
          ∉ (runUpdate c10sch c10lead [] "01/01/2025".data c10env c10wf).2)
      ∧ (∀ nm d, UOp.putTask nm d ∈ (runUpdate c10sch c10lead [] "01/01/2025".data c10env c10wf).2
          → d = none)
      ∧ descPair c10lead "01/01/2025".data c10env = ([], none)
      ∧ (runCreateImport c10sch c10lead [] "01/01/2025".data).description = none
      ∧ (∀ v, (VALOR_VENDA_CUSTOM_FIELD_ID, v)
          ∉ (runCreateImport c10sch c10lead [] "01/01/2025".data).customFields)
      ∧ tasksLeadCreateParts c10lead.valor none ["Curso X".data] "01/01/2025".data
          = (none, none)
      ∧ parseCurrencyToNumber (JsVal.str ['0']) = some 0
      ∧ parseCurrencyToNumber (JsVal.str "R$ 0,00".data) = some 0) :=
  ⟨rfl,
    claim_C10_zero_amount_treated_as_absent c10sch c10lead [] "01/01/2025".data c10env c10wf
      none ["Curso X".data] rfl (by decide)
      (fun wfd hwf => Option.noConfusion hwf) (by decide)
      (fun pf hpf => Option.noConfusion hpf)⟩

end CRM
